import Mathlib

/-!
Verification of pg_pathman's partitioning core against its specification.

Part 1: the index-range algebra of `src/rangeset.c` (IndexRange lists with
an exact/lossy flag), embedded shallowly over `Nat` ordinals.

Part 2: a state-machine embedding of the partition scheme cache and the
delayed-invalidation queue of `src/relation_info.c`.
-/

namespace Rangeset

/-- An `IndexRange` from rangeset.h: a span `[lower, upper]` (inclusive) of
partition ordinals with a lossiness flag.  Modelled from the spec: rangeset.h
itself is not in src; per the spec (§3) the bounds are machine integers with
`lower <= upper`; we model ordinals as `Nat`. -/
structure IndexRange where
  lower : Nat
  upper : Nat
  lossy : Bool
deriving DecidableEq, Repr

/-- Modelled from the spec: rangeset.h's boundary predecessor `irb_pred`,
saturating at 0 (the header guards against underflow); `Nat` subtraction
saturates the same way. -/
def irb_pred (i : Nat) : Nat := i - 1

/-- Modelled from the spec: rangeset.h's boundary successor `irb_succ`. -/
def irb_succ (i : Nat) : Nat := i + 1

/-- `iranges_intersect` from rangeset.c. -/
def iranges_intersect (a b : IndexRange) : Prop :=
  a.lower ≤ b.upper ∧ b.lower ≤ a.upper

instance : ∀ a b, Decidable (iranges_intersect a b) :=
  fun _ _ => instDecidableAnd

/-- `iranges_adjoin` from rangeset.c. -/
def iranges_adjoin (a b : IndexRange) : Prop :=
  a.upper = irb_pred b.lower ∨ b.upper = irb_pred a.lower

instance : ∀ a b, Decidable (iranges_adjoin a b) :=
  fun _ _ => instDecidableOr

/-- `irange_eq_bounds` from rangeset.c. -/
def irange_eq_bounds (a b : IndexRange) : Prop :=
  a.lower = b.lower ∧ a.upper = b.upper

instance : ∀ a b, Decidable (irange_eq_bounds a b) :=
  fun _ _ => instDecidableAnd

/-- `make_irange` from rangeset.h (constructor; modelled from the spec). -/
def make_irange (lo hi : Nat) (lossy : Bool) : IndexRange :=
  ⟨lo, hi, lossy⟩

/-- `ir_cmp_lossiness` result codes from rangeset.h. -/
inductive ir_cmp_lossiness where
  | IR_EQ_LOSSINESS
  | IR_A_LOSSY
  | IR_B_LOSSY
deriving DecidableEq, Repr

/-- `irange_cmp_lossiness` from rangeset.c. -/
def irange_cmp_lossiness (a b : IndexRange) : ir_cmp_lossiness :=
  if a.lossy = b.lossy then .IR_EQ_LOSSINESS
  else if a.lossy then .IR_A_LOSSY
  else if b.lossy then .IR_B_LOSSY
  else .IR_EQ_LOSSINESS

/-- `irange_union_simple` from rangeset.c. -/
def irange_union_simple (a b : IndexRange) : IndexRange :=
  make_irange (min a.lower b.lower) (max a.upper b.upper) (a.lossy && b.lossy)

/-- `irange_intersection_simple` from rangeset.c. -/
def irange_intersection_simple (a b : IndexRange) : IndexRange :=
  make_irange (max a.lower b.lower) (min a.upper b.upper) (a.lossy || b.lossy)

/-- `irange_handle_cover_internal` from rangeset.c: split a covering range
around an inner range of different lossiness.  The C version appends to the
output list through `new_iranges` and returns the rightmost range; we return
the updated list together with that range. -/
def irange_handle_cover_internal (ir_covering ir_inner : IndexRange)
    (new_iranges : List IndexRange) : List IndexRange × IndexRange :=
  if ir_covering.lossy = false then (new_iranges, ir_covering)
  else
    let left_range_lower := ir_covering.lower
    let left_range_upper := max (irb_pred ir_inner.lower) left_range_lower
    let right_range_upper := ir_covering.upper
    let right_range_lower := min (irb_succ ir_inner.upper) right_range_upper
    let new_iranges1 :=
      if ir_inner.lower > left_range_upper then
        new_iranges ++ [make_irange left_range_lower left_range_upper true]
      else new_iranges
    if right_range_lower > ir_inner.upper then
      (new_iranges1 ++ [ir_inner],
       make_irange right_range_lower right_range_upper true)
    else
      (new_iranges1, ir_inner)

/-- `irange_union_internal` from rangeset.c: combine two ranges, flushing any
finished fragments to the output list and returning the rightmost range. -/
def irange_union_internal (first0 second0 : IndexRange)
    (new_iranges : List IndexRange) : List IndexRange × IndexRange :=
  -- Swap 'first' and 'second' if order is incorrect
  let first := if first0.lower > second0.lower then second0 else first0
  let second := if first0.lower > second0.lower then first0 else second0
  if iranges_intersect first second then
    let ir_union := irange_union_simple first second
    if first.lossy = second.lossy then (new_iranges, ir_union)
    else if irange_eq_bounds ir_union first then
      irange_handle_cover_internal first second new_iranges
    else if irange_eq_bounds ir_union second then
      irange_handle_cover_internal second first new_iranges
    else
      if first.lossy = false then
        (new_iranges ++ [first],
         make_irange (irb_succ first.upper) second.upper second.lossy)
      else
        (new_iranges ++ [make_irange first.lower (irb_pred second.lower) first.lossy],
         second)
  else
    if irange_cmp_lossiness first second = .IR_EQ_LOSSINESS ∧
       iranges_adjoin first second then
      (new_iranges, irange_union_simple first second)
    else
      (new_iranges ++ [first], second)

/-- The merge loop of `irange_list_union` from rangeset.c.  `cur` is the
current accumulator (`InvalidIndexRange` is modelled as `none`), `result` the
output built so far; each step fetches the range with the least lower bound
(taking A's on a tie, as the C `<=` does). -/
def irange_list_union_loop :
    List IndexRange → List IndexRange → Option IndexRange → List IndexRange →
    List IndexRange
  | [], [], cur, result =>
      match cur with
      | some c => result ++ [c]
      | none => result
  | x :: xs, [], cur, result =>
      match cur with
      | none => irange_list_union_loop xs [] (some x) result
      | some c =>
          let p := irange_union_internal c x result
          irange_list_union_loop xs [] (some p.2) p.1
  | [], y :: ys, cur, result =>
      match cur with
      | none => irange_list_union_loop [] ys (some y) result
      | some c =>
          let p := irange_union_internal c y result
          irange_list_union_loop [] ys (some p.2) p.1
  | x :: xs, y :: ys, cur, result =>
      if x.lower ≤ y.lower then
        match cur with
        | none => irange_list_union_loop xs (y :: ys) (some x) result
        | some c =>
            let p := irange_union_internal c x result
            irange_list_union_loop xs (y :: ys) (some p.2) p.1
      else
        match cur with
        | none => irange_list_union_loop (x :: xs) ys (some y) result
        | some c =>
            let p := irange_union_internal c y result
            irange_list_union_loop (x :: xs) ys (some p.2) p.1
termination_by a b _ _ => a.length + b.length

/-- `irange_list_union` from rangeset.c. -/
def irange_list_union (a b : List IndexRange) : List IndexRange :=
  irange_list_union_loop a b none []

/-- The body of one iteration of `irange_list_intersection`'s loop
(rangeset.c lines 330-357): if the two head ranges intersect, emit their
intersection, gluing it onto the last output range when they adjoin with
equal lossiness. -/
def irange_list_intersection_step (ra rb : IndexRange)
    (result : List IndexRange) : List IndexRange :=
  if iranges_intersect ra rb then
    let intersect := irange_intersection_simple ra rb
    match result.getLast? with
    | some last =>
        if iranges_adjoin last intersect ∧ last.lossy = intersect.lossy then
          result.dropLast ++ [irange_union_simple last intersect]
        else result ++ [intersect]
    | none => result ++ [intersect]
  else result

/-- The two-pointer loop of `irange_list_intersection` from rangeset.c.
Each step runs `irange_list_intersection_step` on the head ranges and
advances whichever side's upper bound is exhausted. -/
def irange_list_intersection_loop :
    List IndexRange → List IndexRange → List IndexRange → List IndexRange
  | ra :: as_, rb :: bs, result =>
      let result1 := irange_list_intersection_step ra rb result
      if ra.upper ≤ rb.upper then
        if ra.upper ≥ rb.upper then
          irange_list_intersection_loop as_ bs result1
        else
          irange_list_intersection_loop as_ (rb :: bs) result1
      else
        irange_list_intersection_loop (ra :: as_) bs result1
  | _, _, result => result
termination_by a b _ => a.length + b.length

/-- `irange_list_intersection` from rangeset.c. -/
def irange_list_intersection (a b : List IndexRange) : List IndexRange :=
  irange_list_intersection_loop a b []

/-- `irange_list_length` from rangeset.c. -/
def irange_list_length (rangeset : List IndexRange) : Nat :=
  rangeset.foldl (fun acc r => acc + (r.upper - r.lower + 1)) 0

/-- `irange_list_find` from rangeset.c: the first range covering `index`
wins; `some lossy` plays the role of the `true` return plus the `lossy`
out-parameter, `none` the `false` return. -/
def irange_list_find (rangeset : List IndexRange) (index : Nat) : Option Bool :=
  match rangeset with
  | [] => none
  | r :: rs =>
      if r.lower ≤ index ∧ index ≤ r.upper then some r.lossy
      else irange_list_find rs index

/-! ### Specification-side vocabulary -/

/-- A valid range list (spec §3): each range has `lower ≤ upper`, and the
list is sorted by lower bound with disjoint (non-overlapping) spans. -/
def rlist_valid (l : List IndexRange) : Prop :=
  (∀ r ∈ l, r.lower ≤ r.upper) ∧ l.Chain' (fun r s => r.upper < s.lower)

instance rlist_valid_decidable (l : List IndexRange) :
    Decidable (rlist_valid l) :=
  inferInstanceAs (Decidable (_ ∧ _))

/-- Lossiness of a single range at an ordinal (`none` if not covered). -/
def range_find (r : IndexRange) (i : Nat) : Option Bool :=
  if r.lower ≤ i ∧ i ≤ r.upper then some r.lossy else none

/-- The spec's union rule at one ordinal: covered by both ⇒ `AND` of the
lossiness flags, else the lossiness of whichever side covers it. -/
def union_find : Option Bool → Option Bool → Option Bool
  | some x, some y => some (x && y)
  | some x, none => some x
  | none, some y => some y
  | none, none => none

/-- The spec's intersection rule at one ordinal: covered by both ⇒ `OR` of
the lossiness flags, else not covered. -/
def inter_find : Option Bool → Option Bool → Option Bool
  | some x, some y => some (x || y)
  | _, _ => none

/-! ### Helper lemmas about validity and `irange_list_find` -/

/-- First-match combination used to describe `irange_list_find` on appends. -/
def ofind_or : Option Bool → Option Bool → Option Bool
  | some b, _ => some b
  | none, y => y


end Rangeset

/-!
## Part 2: partition scheme cache and delayed invalidation
(`src/relation_info.c`), embedded as a state machine over explicit cache
states, with the catalog and lock manager as oracles supplied through
environment records.
-/

namespace RelationInfo

/-- Relation identifiers (Oids). -/
abbrev Oid := Nat

/-- `PartType` from relation_info.h (header not in src; modelled from the
source's usage: `PT_INDIFFERENT` is the unsupported default, `PT_NULL` marks
a NULL-only partition's bound). -/
inductive PartType where
  | PT_INDIFFERENT
  | PT_HASH
  | PT_RANGE
  | PT_NULL
deriving DecidableEq, Repr

/-- A `Bound` (spec §3): a totally ordered value with ±infinity sentinels. -/
inductive Bound where
  | minusInfinity
  | finite (v : Int)
  | plusInfinity
deriving DecidableEq, Repr

/-- `RangeEntry`: child oid plus its `[min, max)` bounds. -/
structure RangeEntry where
  child_oid : Oid
  min : Bound
  max : Bound
deriving DecidableEq, Repr

/-- The observable fields of a `PartRelationInfo` cache entry
(relation_info.h is not in src; fields follow the source's usage: `valid`
flag, `children` and `ranges` arrays that may be NULL, partitioning type and
the `enable_parent` parameter). -/
structure PartRelationInfo where
  valid : Bool
  children : Option (List Oid)
  ranges : Option (List RangeEntry)
  parttype : PartType
  enable_parent : Bool
deriving DecidableEq, Repr

/-- A freshly inserted, immediately reset cache entry: invalid with NULL
`children` and `ranges` (the other fields are unobserved garbage in C;
modelled as fixed defaults). -/
def blank_prel : PartRelationInfo :=
  ⟨false, none, none, .PT_INDIFFERENT, false⟩

/-- The per-backend `partitioned_rels` hash table. -/
def PrelCache := Oid → Option PartRelationInfo

def cache_update (c : PrelCache) (k : Oid) (v : Option PartRelationInfo) :
    PrelCache :=
  fun o => if o = k then v else c o

/-- `invalidate_pathman_relation_info` from relation_info.c: look the entry
up (`HASH_FIND` when the caller wants `found`, `HASH_ENTER` otherwise, which
creates a missing entry), free its arrays and mark it invalid.  Returns the
new cache, the returned `PartRelationInfo*` and the `prel_found` flag. -/
def invalidate_pathman_relation_info (cache : PrelCache) (relid : Oid)
    (found_requested : Bool) :
    PrelCache × Option PartRelationInfo × Bool :=
  match cache relid, found_requested with
  | some e, _ =>
      let e' := { e with children := none, ranges := none, valid := false }
      (cache_update cache relid (some e'), some e', true)
  | none, true => (cache, none, false)
  | none, false =>
      (cache_update cache relid (some blank_prel), some blank_prel, false)

/-- `remove_pathman_relation_info` from relation_info.c: invalidate (with
`found`), then `HASH_REMOVE` the slot if it existed. -/
def remove_pathman_relation_info (cache : PrelCache) (relid : Oid) : PrelCache :=
  let r := invalidate_pathman_relation_info cache relid true
  if r.2.2 then cache_update r.1 relid none else r.1

/-- Shapes a partition's check-constraint expression can take, as the
validators classify them (expression trees are opaque here; the catalog
oracle yields the classification directly). -/
inductive ConstraintExpr where
  | nullTest
  | hashOk (part_idx : Nat)
  | rangeOk (lower upper : Option Int)
  | malformed
deriving DecidableEq, Repr

/-- `validate_hash_constraint` (pg_pathman's utils, not in src).  Modelled
from the spec: succeeds exactly on the canonical HASH constraint shape,
yielding the hash remainder. -/
def validate_hash_constraint : ConstraintExpr → Option Nat
  | .hashOk i => some i
  | _ => none

/-- `validate_range_constraint` (pg_pathman's utils, not in src).  Modelled
from the spec: succeeds exactly on the canonical RANGE constraint shape,
yielding the optional lower/upper bounds (`none` = missing = ±infinity). -/
def validate_range_constraint : ConstraintExpr → Option (Option Int × Option Int)
  | .rangeOk lo hi => some (lo, hi)
  | _ => none

/-- `PartBoundInfo`: one partition's derived bound descriptor. -/
structure PartBoundInfo where
  child_rel : Oid
  parttype : PartType
  part_idx : Nat
  range_min : Bound
  range_max : Bound
deriving DecidableEq, Repr

/-- `fill_pbin_with_bounds` from relation_info.c: classify the constraint
expression.  A NullTest yields a `PT_NULL` bound; otherwise the constraint
must match the canonical shape for the parent's partitioning type, else
`DisablePathman()` (hooks flag cleared) and `ereport(ERROR)` (`none`);
an unsupported partitioning type also disables and errors
(`WrongPartType`).  Returns the bound (or `none` = ERROR) and the hooks
flag. -/
def fill_pbin_with_bounds (prel_parttype : PartType) (child : Oid)
    (e : ConstraintExpr) (hooks_enabled : Bool) :
    Option PartBoundInfo × Bool :=
  if e = .nullTest then
    (some ⟨child, .PT_NULL, 0, .minusInfinity, .plusInfinity⟩, hooks_enabled)
  else
    match prel_parttype with
    | .PT_HASH =>
        match validate_hash_constraint e with
        | some idx =>
            (some ⟨child, .PT_HASH, idx, .minusInfinity, .plusInfinity⟩,
             hooks_enabled)
        | none => (none, false)
    | .PT_RANGE =>
        match validate_range_constraint e with
        | some (lo, hi) =>
            (some ⟨child, .PT_RANGE, 0,
              (match lo with | none => .minusInfinity | some v => .finite v),
              (match hi with | none => .plusInfinity | some v => .finite v)⟩,
             hooks_enabled)
        | none => (none, false)
    | _ => (none, false)

/-- `get_partition_constraint_expr` from relation_info.c: fetch the
partition's check constraint; a missing constraint disables pg_pathman and
raises ERROR (`none` result). -/
def get_partition_constraint_expr (constraints : Oid → Option ConstraintExpr)
    (partition : Oid) (hooks_enabled : Bool) :
    Option ConstraintExpr × Bool :=
  match constraints partition with
  | none => (none, false)
  | some e => (some e, hooks_enabled)

/-- `get_bounds_of_partition`'s bound-building path: constraint lookup
followed by `fill_pbin_with_bounds` (the bounds cache is bypassed;
caching does not change the derived value). -/
def derive_bound_of_partition (constraints : Oid → Option ConstraintExpr)
    (prel_parttype : PartType) (child : Oid) (hooks : Bool) :
    Option PartBoundInfo × Bool :=
  match get_partition_constraint_expr constraints child hooks with
  | (none, h) => (none, h)
  | (some e, h) => fill_pbin_with_bounds prel_parttype child e h

/-- The per-child loop of `fill_prel_with_partitions`: derive every child's
bound, propagating the first failure (ERROR aborts the loop). -/
def derive_bounds_list (constraints : Oid → Option ConstraintExpr)
    (pt : PartType) : List Oid → Bool → Except Unit (List PartBoundInfo) × Bool
  | [], hooks => (.ok [], hooks)
  | c :: rest, hooks =>
      match derive_bound_of_partition constraints pt c hooks with
      | (none, h) => (.error (), h)
      | (some pbin, h) =>
          match derive_bounds_list constraints pt rest h with
          | (.ok l, h2) => (.ok (pbin :: l), h2)
          | (.error er, h2) => (.error er, h2)

/-- `cmp_bounds` (pg_pathman's utils, not in src).  Modelled from the spec:
-infinity < finite (by value) < +infinity; `true` iff `a ≤ b`. -/
def bound_le : Bound → Bound → Bool
  | .minusInfinity, _ => true
  | _, .plusInfinity => true
  | .finite a, .finite b => a ≤ b
  | .plusInfinity, _ => false
  | .finite _, .minusInfinity => false

def insert_range_entry (e : RangeEntry) : List RangeEntry → List RangeEntry
  | [] => [e]
  | x :: xs =>
      if bound_le x.min e.min then x :: insert_range_entry e xs
      else e :: x :: xs

/-- Sorting RANGE entries by `min` (`qsort_arg` with `cmp_range_entries`,
modelled as an insertion sort — the claims do not depend on the sorting
algorithm). -/
def sort_range_entries : List RangeEntry → List RangeEntry
  | [] => []
  | x :: xs => insert_range_entry x (sort_range_entries xs)

/-- `fill_prel_with_partitions` from relation_info.c: derive every child's
bound (an ERROR propagates out), then for RANGE tables sort the entries by
`min` and take the children from the sorted order.  HASH slot placement by
`part_idx` is abstracted to the given order. -/
def fill_prel_with_partitions (constraints : Oid → Option ConstraintExpr)
    (pt : PartType) (partitions : List Oid) (hooks : Bool) :
    Except Unit (List Oid × Option (List RangeEntry)) × Bool :=
  match derive_bounds_list constraints pt partitions hooks with
  | (.error er, h) => (.error er, h)
  | (.ok pbins, h) =>
      if pt = .PT_RANGE then
        let entries :=
          (pbins.filter (fun p => p.parttype = .PT_RANGE)).map
            (fun p => RangeEntry.mk p.child_rel p.range_min p.range_max)
        let sorted := sort_range_entries entries
        (.ok (sorted.map (·.child_oid), some sorted), h)
      else
        (.ok (partitions, none), h)

/-- `find_inheritance_children_array` result codes (pg_compat, not in src;
names follow the source's switch). -/
inductive FindChildrenResult where
  | FCS_FOUND (children : List Oid)
  | FCS_NO_CHILDREN
  | FCS_COULD_NOT_LOCK
deriving DecidableEq, Repr

/-- `DEFAULT_ENABLE_PARENT` (relation_info.h, not in src; the spec's
default). -/
def DEFAULT_ENABLE_PARENT : Bool := false

/-- The catalog/lock oracle consumed by one `refresh` call. -/
structure RefreshEnv where
  lock_ok : Bool
  parent_exists : Bool
  parttype : PartType
  find_children : FindChildrenResult
  constraints : Oid → Option ConstraintExpr
  params : Option Bool

/-- `refresh_pathman_relation_info` from relation_info.c: invalidate (and
create) the entry, lock the parent (conditionally under
`allow_incomplete`), check existence, find children, fill the entry with
partition data (ERROR leaves the entry invalid with freed arrays and
rethrows), and only then set `valid := true`.  Returns the cache, hooks
flag and the normal (`ok`) or error result. -/
def refresh_pathman_relation_info (env : RefreshEnv) (cache : PrelCache)
    (relid : Oid) (allow_incomplete : Bool) (hooks : Bool) :
    PrelCache × Bool × Except Unit (Option PartRelationInfo) :=
  let c1 := (invalidate_pathman_relation_info cache relid false).1
  if allow_incomplete ∧ ¬ env.lock_ok then
    (c1, hooks, .ok none)
  else if ¬ env.parent_exists then
    (remove_pathman_relation_info c1 relid, hooks, .ok none)
  else
    let c2 := cache_update c1 relid (some { blank_prel with parttype := env.parttype })
    match env.find_children with
    | .FCS_NO_CHILDREN => (remove_pathman_relation_info c2 relid, hooks, .ok none)
    | .FCS_COULD_NOT_LOCK => (c2, hooks, .ok none)
    | .FCS_FOUND children =>
        match fill_prel_with_partitions env.constraints env.parttype children hooks with
        | (.error _, h) =>
            (cache_update c2 relid
              (some { blank_prel with parttype := env.parttype }), h, .error ())
        | (.ok (chl, rngs), h) =>
            let entry : PartRelationInfo :=
              { valid := true, children := some chl, ranges := rngs,
                parttype := env.parttype,
                enable_parent := env.params.getD DEFAULT_ENABLE_PARENT }
            (cache_update c2 relid (some entry), h, .ok (some entry))

/-- The oracle consumed by one `get` call. -/
structure GetEnv where
  in_config : Oid → Bool
  refresh_env : RefreshEnv

/-- `get_pathman_relation_info` from relation_info.c: a present-but-invalid
entry triggers a rebuild — `refresh` when PATHMAN_CONFIG still contains the
relation, removal otherwise; a valid entry (or no entry) is returned
directly. -/
def get_pathman_relation_info (genv : GetEnv) (cache : PrelCache)
    (relid : Oid) (hooks : Bool) :
    PrelCache × Bool × Except Unit (Option PartRelationInfo) :=
  match cache relid with
  | some e =>
      if ¬ e.valid then
        if genv.in_config relid then
          refresh_pathman_relation_info genv.refresh_env cache relid false hooks
        else
          (remove_pathman_relation_info cache relid, hooks, .ok none)
      else (cache, hooks, .ok (some e))
  | none => (cache, hooks, .ok none)


/-- `PartParentSearch` result codes from relation_info.h (not in src; names
follow the source's switch in `finish_delayed_invalidation`). -/
inductive PartParentSearch where
  | PPS_ENTRY_NOT_FOUND
  | PPS_ENTRY_PARENT
  | PPS_ENTRY_PART_PARENT
  | PPS_NOT_SURE
deriving DecidableEq, Repr

/-- The caches touched by the drain: the `partitioned_rels` table, the
`parent_cache` table, the global hooks flag and the config-loaded flag. -/
structure CacheState where
  prels : PrelCache
  parent_cache : Oid → Option Oid
  hooks : Bool
  config_loaded : Bool

/-- The full delayed-invalidation state: the two pending queues
(`delayed_invalidation_parent_rels`, `delayed_invalidation_vague_rels`),
the `delayed_shutdown` flag, and the caches. -/
structure DrainState where
  parent_rels : List Oid
  vague_rels : List Oid
  shutdown : Bool
  caches : CacheState

/-- The catalog oracle consumed by one drain call. -/
structure DrainEnv where
  is_transaction : Bool
  is_toast : Oid → Bool
  in_config : Oid → Bool
  config_dropped : Bool
  refresh_env : Oid → RefreshEnv
  syscache_parent : Oid → Option Oid

/-- `unload_config` (init.c, not in src).  Modelled from the spec: pg_pathman
unloads its config, clearing the loaded flag. -/
def unload_config (cs : CacheState) : CacheState :=
  { cs with config_loaded := false }

/-- `try_syscache_parent_search` from relation_info.c: outside a transaction
the answer is `PPS_NOT_SURE`; otherwise look the parent up in pg_inherits
and classify it by PATHMAN_CONFIG membership. -/
def try_syscache_parent_search (env : DrainEnv) (partition : Oid) :
    Option Oid × PartParentSearch :=
  if ¬ env.is_transaction then (none, .PPS_NOT_SURE)
  else
    match env.syscache_parent partition with
    | none => (none, .PPS_ENTRY_NOT_FOUND)
    | some parent =>
        (some parent,
         if env.in_config parent then .PPS_ENTRY_PART_PARENT
         else .PPS_ENTRY_PARENT)

/-- `get_parent_of_partition` from relation_info.c: consult `parent_cache`
first (a hit means a known partitioned parent), fall back to the syscache
search. -/
def get_parent_of_partition (env : DrainEnv) (parent_cache : Oid → Option Oid)
    (partition : Oid) : Option Oid × PartParentSearch :=
  match parent_cache partition with
  | some p => (some p, .PPS_ENTRY_PART_PARENT)
  | none => try_syscache_parent_search env partition

/-- `try_perform_parent_refresh` from relation_info.c: if the relation is
still in PATHMAN_CONFIG, refresh it (with `allow_incomplete`) and report
success; otherwise report failure without touching anything. -/
def try_perform_parent_refresh (env : DrainEnv) (cs : CacheState)
    (parent : Oid) : CacheState × Bool :=
  if env.in_config parent then
    let r := refresh_pathman_relation_info (env.refresh_env parent)
               cs.prels parent true cs.hooks
    ({ cs with prels := r.1, hooks := r.2.1 }, true)
  else (cs, false)

/-- The per-oid body of the drain's first loop (parents): skip TOAST ids,
remove the entry when the relation left PATHMAN_CONFIG, invalidate it
otherwise. -/
def process_parent_rel (env : DrainEnv) (cs : CacheState) (parent : Oid) :
    CacheState :=
  if env.is_toast parent then cs
  else if ¬ env.in_config parent then
    { cs with prels := remove_pathman_relation_info cs.prels parent }
  else
    { cs with prels := (invalidate_pathman_relation_info cs.prels parent false).1 }

/-- The per-oid body of the drain's second loop (vague rels): skip TOAST
ids; try refreshing the oid as a parent; else find its parent and, unless
that parent is already queued in `fresh_rels` (the parents list), try
refreshing the parent; `PPS_NOT_SURE` is unreachable inside a transaction
(the source raises ERROR). -/
def process_vague_rel (env : DrainEnv) (fresh_rels : List Oid)
    (cs : CacheState) (vague_rel : Oid) : CacheState :=
  if env.is_toast vague_rel then cs
  else
    let t := try_perform_parent_refresh env cs vague_rel
    if t.2 then t.1
    else
      match get_parent_of_partition env cs.parent_cache vague_rel with
      | (some parent, .PPS_ENTRY_PART_PARENT) =>
          if parent ∈ fresh_rels then cs
          else (try_perform_parent_refresh env cs parent).1
      | (some parent, .PPS_ENTRY_PARENT) =>
          if parent ∈ fresh_rels then cs
          else (try_perform_parent_refresh env cs parent).1
      | _ => cs

/-- `finish_delayed_invalidation` from relation_info.c: exit right away when
both queues are empty and no shutdown is pending; do nothing outside a
transaction; a pending shutdown is unset and, if PATHMAN_CONFIG was indeed
dropped, the config is unloaded and both queues freed with no per-oid
processing; otherwise drain the parents queue then the vague queue and free
both. -/
def finish_delayed_invalidation (env : DrainEnv) (st : DrainState) :
    DrainState :=
  if st.parent_rels = [] ∧ st.vague_rels = [] ∧ st.shutdown = false then st
  else if env.is_transaction then
    if st.shutdown ∧ env.config_dropped then
      { parent_rels := [], vague_rels := [], shutdown := false,
        caches := unload_config st.caches }
    else
      let cs1 := st.parent_rels.foldl (process_parent_rel env) st.caches
      let cs2 := st.vague_rels.foldl (process_vague_rel env st.parent_rels) cs1
      { parent_rels := [], vague_rels := [], shutdown := false, caches := cs2 }
  else st


/-! ### Concrete fixtures used to instantiate the theorems below -/

/-- A trivial refresh oracle (parent locked and present, no children). -/
def fix_refresh_env : RefreshEnv :=
  ⟨true, true, .PT_INDIFFERENT, .FCS_NO_CHILDREN, fun _ => none, none⟩

/-- A refresh oracle whose single child 7 has a malformed HASH constraint. -/
def c4_env : RefreshEnv :=
  ⟨true, true, .PT_HASH, .FCS_FOUND [7],
   fun o => if o = 7 then some .malformed else none, none⟩

/-- A drain oracle inside a transaction where PATHMAN_CONFIG was NOT dropped
and no queued relation is TOAST or still in the config. -/
def c5_env : DrainEnv :=
  ⟨true, fun _ => false, fun _ => false, false, fun _ => fix_refresh_env,
   fun _ => none⟩

/-- A drain state with a pending shutdown and one queued parent (42) that
has a cache entry. -/
def c5_st : DrainState :=
  ⟨[42], [], true,
   ⟨fun o => if o = 42 then some blank_prel else none, fun _ => none,
    true, true⟩⟩

def c6_env : DrainEnv :=
  ⟨true, fun _ => false, fun _ => false, false, fun _ => fix_refresh_env,
   fun _ => none⟩

def c6_st : DrainState :=
  ⟨[9], [], false, ⟨fun _ => none, fun _ => none, true, true⟩⟩

/-- A drain oracle where every relation is in a TOAST namespace. -/
def c10_env : DrainEnv :=
  ⟨true, fun _ => true, fun _ => false, false, fun _ => fix_refresh_env,
   fun _ => none⟩

def c10_st : DrainState :=
  ⟨[3], [4], false, ⟨fun _ => none, fun _ => none, true, true⟩⟩

end RelationInfo

namespace Rangeset

theorem ofind_or_none_right (x : Option Bool) : ofind_or x none = x := by
  cases x <;> rfl

theorem union_find_none_right (x : Option Bool) : union_find x none = x := by
  cases x <;> rfl

theorem union_find_none_left (x : Option Bool) : union_find none x = x := by
  cases x <;> rfl

theorem union_find_comm (x y : Option Bool) : union_find x y = union_find y x := by
  cases x <;> cases y <;> simp [union_find, Bool.and_comm]

theorem union_find_assoc (x y z : Option Bool) :
    union_find (union_find x y) z = union_find x (union_find y z) := by
  cases x <;> cases y <;> cases z <;> simp [union_find, Bool.and_assoc]

theorem ofind_or_eq_union_find {x y : Option Bool} (h : x = none ∨ y = none) :
    ofind_or x y = union_find x y := by
  rcases h with h | h
  · subst h; cases y <;> rfl
  · subst h; cases x <;> rfl

theorem rlist_valid_nil : rlist_valid [] := ⟨by simp, by simp⟩

theorem rlist_valid_tail {r : IndexRange} {rs : List IndexRange}
    (h : rlist_valid (r :: rs)) : rlist_valid rs :=
  ⟨fun s hs => h.1 s (List.mem_cons_of_mem r hs), (List.chain'_cons'.mp h.2).2⟩

theorem rlist_valid_head {r : IndexRange} {rs : List IndexRange}
    (h : rlist_valid (r :: rs)) : r.lower ≤ r.upper :=
  h.1 r (List.mem_cons_self r rs)

theorem rlist_valid_cons_lt {r : IndexRange} {rs : List IndexRange}
    (h : rlist_valid (r :: rs)) : ∀ s ∈ rs, r.upper < s.lower := by
  induction rs generalizing r with
  | nil => intro s hs; cases hs
  | cons s rs ih =>
      intro t ht
      have hrel : r.upper < s.lower := (List.chain'_cons.mp h.2).1
      rcases List.mem_cons.mp ht with rfl | ht
      · exact hrel
      · have hs : rlist_valid (s :: rs) := rlist_valid_tail h
        have := ih hs t ht
        have hsu : s.lower ≤ s.upper := rlist_valid_head hs
        omega

theorem rlist_valid_append {l1 l2 : List IndexRange}
    (h1 : rlist_valid l1) (h2 : rlist_valid l2)
    (hlt : ∀ r ∈ l1, ∀ s ∈ l2, r.upper < s.lower) : rlist_valid (l1 ++ l2) := by
  constructor
  · intro r hr
    rcases List.mem_append.mp hr with hr | hr
    · exact h1.1 r hr
    · exact h2.1 r hr
  · apply List.Chain'.append h1.2 h2.2
    intro x hx y hy
    exact hlt x (List.mem_of_mem_getLast? hx) y (List.mem_of_mem_head? hy)

theorem irange_list_find_cons (r : IndexRange) (rs : List IndexRange) (i : Nat) :
    irange_list_find (r :: rs) i = ofind_or (range_find r i) (irange_list_find rs i) := by
  simp only [irange_list_find, range_find]
  split_ifs <;> rfl

theorem irange_list_find_append (l1 l2 : List IndexRange) (i : Nat) :
    irange_list_find (l1 ++ l2) i =
      ofind_or (irange_list_find l1 i) (irange_list_find l2 i) := by
  induction l1 with
  | nil => simp [irange_list_find, ofind_or]
  | cons r rs ih =>
      simp only [List.cons_append, irange_list_find_cons, ih]
      cases range_find r i <;> rfl

theorem irange_list_find_none_of_lower_ge {l : List IndexRange} {k i : Nat}
    (h : ∀ r ∈ l, k ≤ r.lower) (hik : i < k) : irange_list_find l i = none := by
  induction l with
  | nil => rfl
  | cons r rs ih =>
      rw [irange_list_find_cons]
      have hr := h r (List.mem_cons_self r rs)
      have : range_find r i = none := by
        simp only [range_find, ite_eq_right_iff]
        intro hc; omega
      rw [this]
      exact ih fun s hs => h s (List.mem_cons_of_mem r hs)

theorem irange_list_find_none_of_upper_lt {l : List IndexRange} {k i : Nat}
    (h : ∀ r ∈ l, r.upper < k) (hik : k ≤ i) : irange_list_find l i = none := by
  induction l with
  | nil => rfl
  | cons r rs ih =>
      rw [irange_list_find_cons]
      have hr := h r (List.mem_cons_self r rs)
      have : range_find r i = none := by
        simp only [range_find, ite_eq_right_iff]
        intro hc; omega
      rw [this]
      exact ih fun s hs => h s (List.mem_cons_of_mem r hs)

/-- On a valid list the first-match rule agrees with the union rule, because
at most one range covers a given ordinal. -/
theorem irange_list_find_cons_valid {r : IndexRange} {rs : List IndexRange}
    (h : rlist_valid (r :: rs)) (i : Nat) :
    irange_list_find (r :: rs) i =
      union_find (range_find r i) (irange_list_find rs i) := by
  rw [irange_list_find_cons]
  apply ofind_or_eq_union_find
  by_cases hc : r.lower ≤ i ∧ i ≤ r.upper
  · right
    exact irange_list_find_none_of_lower_ge
      (fun s hs => rlist_valid_cons_lt h s hs) (by omega : i < r.upper + 1)
  · left; simp [range_find, hc]

end Rangeset

namespace Rangeset

theorem rlist_valid_singleton {r : IndexRange} (h : r.lower ≤ r.upper) :
    rlist_valid [r] := by
  constructor
  · intro s hs; simp at hs; subst hs; exact h
  · simp

theorem rlist_valid_pair {r s : IndexRange} (h1 : r.lower ≤ r.upper)
    (h2 : s.lower ≤ s.upper) (h3 : r.upper < s.lower) : rlist_valid [r, s] := by
  constructor
  · intro t ht; simp at ht; rcases ht with rfl | rfl <;> assumption
  · simp [h3]

set_option maxHeartbeats 1000000 in
/-- Splitting a lossy covering range around an exact inner range: the pieces
flushed to the output plus the returned rightmost piece reproduce the
`AND`-union of the two ranges at every ordinal. -/
theorem irange_handle_cover_internal_spec (cov inner : IndexRange)
    (h1 : cov.lower ≤ inner.lower) (h2 : inner.upper ≤ cov.upper)
    (h3 : inner.lower ≤ inner.upper)
    (hL : cov.lossy ≠ inner.lossy) :
    ∃ apps ret, irange_handle_cover_internal cov inner [] = (apps, ret) ∧
      cov.lower ≤ ret.lower ∧ ret.lower ≤ ret.upper ∧
      ret.upper = cov.upper ∧
      ret.lower ≤ inner.upper + 1 ∧
      rlist_valid apps ∧
      (∀ r ∈ apps, cov.lower ≤ r.lower ∧ r.upper < ret.lower) ∧
      (∀ i, i < ret.lower →
        irange_list_find apps i = union_find (range_find cov i) (range_find inner i)) ∧
      (∀ i, ret.lower ≤ i →
        range_find ret i = union_find (range_find cov i) (range_find inner i)) := by
  by_cases hcov : cov.lossy = false
  · have hinner : inner.lossy = true := by
      cases h : inner.lossy
      · exact absurd (hcov.trans h.symm) hL
      · rfl
    refine ⟨[], cov, by simp [irange_handle_cover_internal, hcov], le_refl _,
      by omega, rfl, by omega, rlist_valid_nil, by simp, ?_, ?_⟩
    · intro i hi
      simp only [irange_list_find, range_find]
      rw [if_neg (by omega), if_neg (by omega)]
      rfl
    · intro i hi
      simp only [range_find]
      split_ifs <;> simp_all [union_find] <;> omega
  · have hcov' : cov.lossy = true := by
      cases h : cov.lossy
      · exact absurd h hcov
      · rfl
    have hinner : inner.lossy = false := by
      cases h : inner.lossy
      · rfl
      · exact absurd (hcov'.trans h.symm) hL
    simp only [irange_handle_cover_internal, hcov', irb_pred, irb_succ, make_irange,
      if_neg (by simp : ¬ (true = false))]
    by_cases hleft : inner.lower > max (inner.lower - 1) cov.lower
    · rw [if_pos hleft]
      by_cases hright : min (inner.upper + 1) cov.upper > inner.upper
      · rw [if_pos hright]
        refine ⟨_, _, rfl, ?_, ?_, ?_, ?_, ?_, ?_, ?_, ?_⟩
        · (try dsimp only); omega
        · (try dsimp only); omega
        · rfl
        · (try dsimp only); omega
        · exact rlist_valid_pair (by (try dsimp only); omega) (by (try dsimp only); omega)
            (by (try dsimp only); omega)
        · intro r hr; simp at hr
          rcases hr with rfl | rfl <;> (try dsimp only) <;> omega
        · intro i hi
          try dsimp only at hi ⊢
          simp only [irange_list_find_cons, irange_list_find, range_find, ofind_or]
          split_ifs <;> simp_all [union_find, ofind_or] <;> omega
        · intro i hi
          try dsimp only at hi ⊢
          simp only [range_find]
          split_ifs <;> simp_all [union_find] <;> omega
      · rw [if_neg hright]
        refine ⟨_, _, rfl, ?_, ?_, ?_, ?_, ?_, ?_, ?_, ?_⟩
        · (try dsimp only); omega
        · (try dsimp only); omega
        · (try dsimp only); omega
        · (try dsimp only); omega
        · exact rlist_valid_singleton (by (try dsimp only); omega)
        · intro r hr; simp at hr; subst hr; (try dsimp only); omega
        · intro i hi
          try dsimp only at hi ⊢
          simp only [irange_list_find_cons, irange_list_find, range_find, ofind_or]
          split_ifs <;> simp_all [union_find, ofind_or] <;> omega
        · intro i hi
          try dsimp only at hi ⊢
          simp only [range_find]
          split_ifs <;> simp_all [union_find] <;> omega
    · rw [if_neg hleft]
      have hlow : inner.lower = cov.lower := by omega
      by_cases hright : min (inner.upper + 1) cov.upper > inner.upper
      · rw [if_pos hright]
        refine ⟨_, _, rfl, ?_, ?_, ?_, ?_, ?_, ?_, ?_, ?_⟩
        · (try dsimp only); omega
        · (try dsimp only); omega
        · rfl
        · (try dsimp only); omega
        · exact rlist_valid_singleton (by omega)
        · intro r hr; simp at hr; subst hr; (try dsimp only); omega
        · intro i hi
          try dsimp only at hi ⊢
          simp only [irange_list_find_cons, irange_list_find, range_find, ofind_or]
          split_ifs <;> simp_all [union_find, ofind_or] <;> omega
        · intro i hi
          try dsimp only at hi ⊢
          simp only [range_find]
          split_ifs <;> simp_all [union_find] <;> omega
      · rw [if_neg hright]
        refine ⟨_, _, rfl, ?_, ?_, ?_, ?_, ?_, ?_, ?_, ?_⟩
        · omega
        · omega
        · omega
        · omega
        · exact rlist_valid_nil
        · simp
        · intro i hi
          simp only [irange_list_find, range_find]
          rw [if_neg (by omega), if_neg (by omega)]
          rfl
        · intro i hi
          simp only [range_find]
          split_ifs <;> simp_all [union_find] <;> omega

end Rangeset

namespace Rangeset

/-- `irange_handle_cover_internal` only appends to the accumulator list. -/
theorem irange_handle_cover_internal_acc (cov inner : IndexRange)
    (acc : List IndexRange) :
    irange_handle_cover_internal cov inner acc =
      (acc ++ (irange_handle_cover_internal cov inner []).1,
       (irange_handle_cover_internal cov inner []).2) := by
  simp only [irange_handle_cover_internal]
  split_ifs <;> simp

/-- `irange_union_internal` only appends to the accumulator list. -/
theorem irange_union_internal_acc (c n : IndexRange) (acc : List IndexRange) :
    irange_union_internal c n acc =
      (acc ++ (irange_union_internal c n []).1, (irange_union_internal c n []).2) := by
  simp only [irange_union_internal]
  split_ifs <;>
    first
      | simp
      | (exact irange_handle_cover_internal_acc _ _ _)

end Rangeset

namespace Rangeset

theorem irange_cmp_lossiness_eq_iff (a b : IndexRange) :
    irange_cmp_lossiness a b = .IR_EQ_LOSSINESS ↔ a.lossy = b.lossy := by
  cases ha : a.lossy <;> cases hb : b.lossy <;>
    simp [irange_cmp_lossiness, ha, hb]

set_option maxHeartbeats 1000000 in
/-- One step of the union sweep: combining the accumulator `c` with the next
fetched range `n` (which starts no earlier) flushes fragments `apps` and
returns a rightmost range `ret` such that the flushed fragments cover
everything below `ret.lower` and `ret` covers the rest, with `AND`-combined
lossiness everywhere. -/
theorem irange_union_internal_spec (c n : IndexRange)
    (hc : c.lower ≤ c.upper) (hn : n.lower ≤ n.upper) (ho : c.lower ≤ n.lower) :
    ∃ apps ret, irange_union_internal c n [] = (apps, ret) ∧
      c.lower ≤ ret.lower ∧ ret.lower ≤ ret.upper ∧
      ret.upper = max c.upper n.upper ∧
      (ret.lower ≤ n.lower ∨ (ret.lower ≤ c.upper + 1 ∧ ret.lower ≤ n.upper + 1)) ∧
      rlist_valid apps ∧
      (∀ r ∈ apps, c.lower ≤ r.lower ∧ r.upper < ret.lower) ∧
      (∀ i, i < ret.lower →
        irange_list_find apps i = union_find (range_find c i) (range_find n i)) ∧
      (∀ i, ret.lower ≤ i →
        range_find ret i = union_find (range_find c i) (range_find n i)) := by
  have hswap : ¬ (c.lower > n.lower) := by omega
  simp only [irange_union_internal, if_neg hswap]
  by_cases hI : iranges_intersect c n
  · have hI' : n.lower ≤ c.upper := hI.2
    rw [if_pos hI]
    by_cases hL : c.lossy = n.lossy
    · rw [if_pos hL]
      refine ⟨[], _, rfl, ?_, ?_, ?_, ?_, rlist_valid_nil, by simp, ?_, ?_⟩
      · dsimp only [irange_union_simple, make_irange]; omega
      · dsimp only [irange_union_simple, make_irange]; omega
      · dsimp only [irange_union_simple, make_irange]
      · left; dsimp only [irange_union_simple, make_irange]; omega
      · intro i hi
        try dsimp only [irange_union_simple, make_irange] at hi ⊢
        simp only [irange_list_find, range_find]
        rw [if_neg (by omega), if_neg (by omega)]
        rfl
      · intro i hi
        try dsimp only [irange_union_simple, make_irange] at hi ⊢
        simp only [range_find]
        split_ifs <;> simp_all [union_find, Bool.and_self] <;> omega
    · rw [if_neg hL]
      by_cases hE1 : irange_eq_bounds (irange_union_simple c n) c
      · rw [if_pos hE1]
        have hsub : n.upper ≤ c.upper := by
          have h := hE1.2
          simp only [irange_union_simple, make_irange] at h
          omega
        obtain ⟨apps, ret, heq, h1, h2, h3, h4, h5, h6, h7, h8⟩ :=
          irange_handle_cover_internal_spec c n ho hsub hn hL
        exact ⟨apps, ret, heq, h1, h2, by omega,
          Or.inr ⟨by omega, h4⟩, h5, h6, h7, h8⟩
      · rw [if_neg hE1]
        by_cases hE2 : irange_eq_bounds (irange_union_simple c n) n
        · rw [if_pos hE2]
          have hlows : n.lower = c.lower := by
            have h := hE2.1
            simp only [irange_union_simple, make_irange] at h
            omega
          have hups : c.upper ≤ n.upper := by
            have h := hE2.2
            simp only [irange_union_simple, make_irange] at h
            omega
          obtain ⟨apps, ret, heq, h1, h2, h3, h4, h5, h6, h7, h8⟩ :=
            irange_handle_cover_internal_spec n c (by omega) (by omega) hc
              (Ne.symm hL)
          refine ⟨apps, ret, heq, by omega, h2, by omega,
            Or.inr ⟨h4, by omega⟩, h5, ?_, ?_, ?_⟩
          · intro r hr
            have := h6 r hr
            omega
          · intro i hi
            rw [h7 i hi, union_find_comm]
          · intro i hi
            rw [h8 i hi, union_find_comm]
        · rw [if_neg hE2]
          have hmaxc : c.upper < n.upper := by
            simp only [irange_eq_bounds, irange_union_simple, make_irange] at hE1
            omega
          have hlowc : c.lower < n.lower := by
            simp only [irange_eq_bounds, irange_union_simple, make_irange] at hE2
            omega
          by_cases hCL : c.lossy = false
          · rw [if_pos hCL]
            have hNL : n.lossy = true := by
              cases h : n.lossy
              · exact absurd (hCL.trans h.symm) hL
              · rfl
            refine ⟨_, _, rfl, ?_, ?_, ?_, ?_, ?_, ?_, ?_, ?_⟩
            · dsimp only [make_irange, irb_succ]; omega
            · dsimp only [make_irange, irb_succ]; omega
            · dsimp only [make_irange, irb_succ]; omega
            · right; dsimp only [make_irange, irb_succ]; constructor <;> omega
            · exact rlist_valid_singleton hc
            · intro r hr; simp at hr; subst hr
              dsimp only [make_irange, irb_succ]; constructor <;> omega
            · intro i hi
              try dsimp only [make_irange, irb_succ] at hi ⊢
              simp only [irange_list_find_cons, irange_list_find, range_find, ofind_or]
              split_ifs <;> simp_all [union_find, ofind_or] <;> omega
            · intro i hi
              try dsimp only [make_irange, irb_succ] at hi ⊢
              simp only [range_find]
              split_ifs <;> simp_all [union_find] <;> omega
          · rw [if_neg hCL]
            have hCL' : c.lossy = true := by
              cases h : c.lossy
              · exact absurd h hCL
              · rfl
            have hNL : n.lossy = false := by
              cases h : n.lossy
              · rfl
              · exact absurd (hCL'.trans h.symm) hL
            refine ⟨_, _, rfl, ?_, ?_, ?_, ?_, ?_, ?_, ?_, ?_⟩
            · omega
            · omega
            · omega
            · exact Or.inl (le_refl _)
            · exact rlist_valid_singleton (by dsimp only [make_irange, irb_pred]; omega)
            · intro r hr; simp at hr; subst hr
              dsimp only [make_irange, irb_pred]; constructor <;> omega
            · intro i hi
              try dsimp only [make_irange, irb_pred] at hi ⊢
              simp only [irange_list_find_cons, irange_list_find, range_find, ofind_or]
              split_ifs <;> simp_all [union_find, ofind_or] <;> omega
            · intro i hi
              try dsimp only [make_irange, irb_pred] at hi ⊢
              simp only [range_find]
              split_ifs <;> simp_all [union_find] <;> omega
  · rw [if_neg hI]
    have hni : c.upper < n.lower := by
      simp only [iranges_intersect, not_and, not_le] at hI
      omega
    by_cases hAdj : irange_cmp_lossiness c n = .IR_EQ_LOSSINESS ∧ iranges_adjoin c n
    · rw [if_pos hAdj]
      have hL : c.lossy = n.lossy := (irange_cmp_lossiness_eq_iff c n).mp hAdj.1
      have hadj : n.lower = c.upper + 1 := by
        have h := hAdj.2
        simp only [iranges_adjoin, irb_pred] at h
        omega
      refine ⟨[], _, rfl, ?_, ?_, ?_, ?_, rlist_valid_nil, by simp, ?_, ?_⟩
      · dsimp only [irange_union_simple, make_irange]; omega
      · dsimp only [irange_union_simple, make_irange]; omega
      · dsimp only [irange_union_simple, make_irange]
      · left; dsimp only [irange_union_simple, make_irange]; omega
      · intro i hi
        try dsimp only [irange_union_simple, make_irange] at hi ⊢
        simp only [irange_list_find, range_find]
        rw [if_neg (by omega), if_neg (by omega)]
        rfl
      · intro i hi
        try dsimp only [irange_union_simple, make_irange] at hi ⊢
        simp only [range_find]
        split_ifs <;> simp_all [union_find, Bool.and_self] <;> omega
    · rw [if_neg hAdj]
      refine ⟨[c], n, rfl, ?_, hn, ?_, Or.inl (le_refl _), rlist_valid_singleton hc,
        ?_, ?_, ?_⟩
      · omega
      · omega
      · intro r hr; simp at hr; subst hr; exact ⟨le_refl _, by omega⟩
      · intro i hi
        rw [irange_list_find_cons]
        simp only [irange_list_find, ofind_or_none_right]
        have : range_find n i = none := by
          simp only [range_find]; rw [if_neg (by omega)]
        rw [this, union_find_none_right]
      · intro i hi
        have : range_find c i = none := by
          simp only [range_find]; rw [if_neg (by omega)]
        rw [this, union_find_none_left]

end Rangeset

namespace Rangeset

/-- The invariants of the union sweep survive one combining step, and the
per-ordinal description of the final output carries over. `n` is the fetched
range (head of its own list `n :: rest`), `other` is the untouched other
input list, and every remaining range starts no earlier than `n`. -/
theorem irange_union_internal_step {c n ret : IndexRange}
    {apps res rest t : List IndexRange}
    (hc : c.lower ≤ c.upper)
    (hvn : rlist_valid (n :: rest))
    (hres : rlist_valid res) (hsep : ∀ r ∈ res, r.upper < c.lower)
    (hlon : ∀ r ∈ n :: rest, c.lower ≤ r.lower)
    (hloo : ∀ r ∈ t, c.lower ≤ r.lower)
    (hmin : ∀ r ∈ t, n.lower ≤ r.lower)
    (hD : (∀ r ∈ n :: rest, c.upper < r.lower) ∨ (∀ r ∈ t, c.upper < r.lower))
    (heq : irange_union_internal c n [] = (apps, ret)) :
    ret.lower ≤ ret.upper ∧
    rlist_valid (res ++ apps) ∧
    (∀ r ∈ res ++ apps, r.upper < ret.lower) ∧
    (∀ r ∈ rest, ret.lower ≤ r.lower) ∧
    (∀ r ∈ t, ret.lower ≤ r.lower) ∧
    ((∀ r ∈ rest, ret.upper < r.lower) ∨ (∀ r ∈ t, ret.upper < r.lower)) ∧
    (∀ i,
      (if i < ret.lower then irange_list_find (res ++ apps) i
       else union_find (range_find ret i)
         (union_find (irange_list_find rest i) (irange_list_find t i))) =
      (if i < c.lower then irange_list_find res i
       else union_find (range_find c i)
         (union_find (irange_list_find (n :: rest) i) (irange_list_find t i)))) := by
  have hn : n.lower ≤ n.upper := rlist_valid_head hvn
  have ho : c.lower ≤ n.lower := hlon n (List.mem_cons_self n rest)
  obtain ⟨apps', ret', heq', h1, h2, h3, h4, h5, h6, h7, h8⟩ :=
    irange_union_internal_spec c n hc hn ho
  rw [heq] at heq'
  obtain ⟨rfl, rfl⟩ : apps = apps' ∧ ret = ret' := by
    constructor <;> [exact congrArg Prod.fst heq'; exact congrArg Prod.snd heq']
  have hrest_lt : ∀ r ∈ rest, n.upper < r.lower := rlist_valid_cons_lt hvn
  have hrest_lo : ∀ r ∈ rest, ret.lower ≤ r.lower := by
    intro r hr
    have := hrest_lt r hr
    rcases h4 with h | ⟨h4a, h4b⟩ <;> omega
  have hother_lo : ∀ r ∈ t, ret.lower ≤ r.lower := by
    intro r hr
    have hm := hmin r hr
    rcases h4 with h | ⟨h4a, h4b⟩
    · omega
    · rcases hD with hDl | hDr
      · have := hDl n (List.mem_cons_self n rest)
        omega
      · have := hDr r hr
        omega
  refine ⟨h2, ?_, ?_, hrest_lo, hother_lo, ?_, ?_⟩
  · exact rlist_valid_append hres h5 (fun r hr s hs => by
      have := hsep r hr
      have := (h6 s hs).1
      omega)
  · intro r hr
    rcases List.mem_append.mp hr with hr | hr
    · have := hsep r hr
      omega
    · exact (h6 r hr).2
  · rcases hD with hDl | hDr
    · refine Or.inl fun r hr => ?_
      have := hrest_lt r hr
      have := hDl r (List.mem_cons_of_mem n hr)
      omega
    · by_cases hcu : c.upper ≤ n.upper
      · refine Or.inl fun r hr => ?_
        have := hrest_lt r hr
        omega
      · refine Or.inr fun r hr => ?_
        have := hDr r hr
        omega
  · intro i
    rcases Nat.lt_or_ge i c.lower with hi | hi
    · rw [if_pos (show i < ret.lower by omega), if_pos hi]
      rw [irange_list_find_append]
      have : irange_list_find apps i = none :=
        irange_list_find_none_of_lower_ge (fun r hr => (h6 r hr).1) hi
      rw [this, ofind_or_none_right]
    · rw [if_neg (show ¬ i < c.lower by omega)]
      rcases Nat.lt_or_ge i ret.lower with hi2 | hi2
      · rw [if_pos hi2]
        rw [irange_list_find_append]
        have hresn : irange_list_find res i = none :=
          irange_list_find_none_of_upper_lt hsep hi
        rw [hresn, h7 i hi2]
        have hrestn : irange_list_find rest i = none :=
          irange_list_find_none_of_lower_ge hrest_lo hi2
        have hothn : irange_list_find t i = none :=
          irange_list_find_none_of_lower_ge hother_lo hi2
        rw [irange_list_find_cons, hrestn, hothn, ofind_or_none_right,
          union_find_none_right]
        rfl
      · rw [if_neg (show ¬ i < ret.lower by omega), h8 i hi2,
          irange_list_find_cons_valid hvn, union_find_assoc, union_find_assoc]

end Rangeset

namespace Rangeset

theorem union_loop_eq_nil_nil (c : IndexRange) (res : List IndexRange) :
    irange_list_union_loop [] [] (some c) res = res ++ [c] := by
  rw [irange_list_union_loop]

theorem union_loop_eq_cons_nil (x : IndexRange) (xs : List IndexRange)
    (c : IndexRange) (res : List IndexRange) :
    irange_list_union_loop (x :: xs) [] (some c) res =
      irange_list_union_loop xs [] (some (irange_union_internal c x res).2)
        (irange_union_internal c x res).1 := by
  rw [irange_list_union_loop]

theorem union_loop_eq_nil_cons (y : IndexRange) (ys : List IndexRange)
    (c : IndexRange) (res : List IndexRange) :
    irange_list_union_loop [] (y :: ys) (some c) res =
      irange_list_union_loop [] ys (some (irange_union_internal c y res).2)
        (irange_union_internal c y res).1 := by
  rw [irange_list_union_loop]

theorem union_loop_eq_cons_cons_left (x : IndexRange) (xs : List IndexRange)
    (y : IndexRange) (ys : List IndexRange) (c : IndexRange)
    (res : List IndexRange) (hxy : x.lower ≤ y.lower) :
    irange_list_union_loop (x :: xs) (y :: ys) (some c) res =
      irange_list_union_loop xs (y :: ys) (some (irange_union_internal c x res).2)
        (irange_union_internal c x res).1 := by
  rw [irange_list_union_loop, if_pos hxy]

theorem union_loop_eq_cons_cons_right (x : IndexRange) (xs : List IndexRange)
    (y : IndexRange) (ys : List IndexRange) (c : IndexRange)
    (res : List IndexRange) (hxy : ¬ x.lower ≤ y.lower) :
    irange_list_union_loop (x :: xs) (y :: ys) (some c) res =
      irange_list_union_loop (x :: xs) ys (some (irange_union_internal c y res).2)
        (irange_union_internal c y res).1 := by
  rw [irange_list_union_loop, if_neg hxy]

end Rangeset

namespace Rangeset

/-- Flushing the accumulator at the end of the union sweep. -/
theorem union_loop_base {cur : IndexRange} {res : List IndexRange}
    (hcur : cur.lower ≤ cur.upper)
    (hres : rlist_valid res) (hsep : ∀ r ∈ res, r.upper < cur.lower) :
    rlist_valid (res ++ [cur]) ∧
    (∀ i, irange_list_find (res ++ [cur]) i =
      if i < cur.lower then irange_list_find res i
      else union_find (range_find cur i)
        (union_find (irange_list_find ([] : List IndexRange) i)
          (irange_list_find ([] : List IndexRange) i))) := by
  constructor
  · exact rlist_valid_append hres (rlist_valid_singleton hcur)
      (fun r hr s hs => by simp at hs; subst hs; exact hsep r hr)
  · intro i
    rw [irange_list_find_append, irange_list_find_cons]
    simp only [irange_list_find, ofind_or_none_right]
    rcases Nat.lt_or_ge i cur.lower with hi | hi
    · rw [if_pos hi]
      have : range_find cur i = none := by
        simp only [range_find]; rw [if_neg (by omega)]
      rw [this, ofind_or_none_right]
    · rw [if_neg (show ¬ i < cur.lower by omega)]
      have : irange_list_find res i = none :=
        irange_list_find_none_of_upper_lt hsep hi
      rw [this, union_find_none_right, union_find_none_right]
      rfl

set_option maxHeartbeats 1000000 in
/-- Invariant-carrying specification of the union sweep loop: the output is a
valid range list whose per-ordinal content is the flushed output below the
accumulator's start and the `AND`-union of accumulator and remaining inputs
from there on. -/
theorem irange_list_union_loop_spec (N : Nat) :
    ∀ (a b : List IndexRange) (cur : IndexRange) (res : List IndexRange),
      a.length + b.length ≤ N →
      rlist_valid a → rlist_valid b → cur.lower ≤ cur.upper →
      rlist_valid res → (∀ r ∈ res, r.upper < cur.lower) →
      (∀ r ∈ a, cur.lower ≤ r.lower) → (∀ r ∈ b, cur.lower ≤ r.lower) →
      ((∀ r ∈ a, cur.upper < r.lower) ∨ (∀ r ∈ b, cur.upper < r.lower)) →
      rlist_valid (irange_list_union_loop a b (some cur) res) ∧
      (∀ i, irange_list_find (irange_list_union_loop a b (some cur) res) i =
        if i < cur.lower then irange_list_find res i
        else union_find (range_find cur i)
          (union_find (irange_list_find a i) (irange_list_find b i))) := by
  induction N with
  | zero =>
      intro a b cur res hlen hva hvb hcur hres hsep hloa hlob hD
      have ha : a = [] := List.length_eq_zero.mp (by omega)
      have hb : b = [] := List.length_eq_zero.mp (by omega)
      subst ha; subst hb
      rw [union_loop_eq_nil_nil]
      exact union_loop_base hcur hres hsep
  | succ N IH =>
      intro a b cur res hlen hva hvb hcur hres hsep hloa hlob hD
      match a, b with
      | [], [] =>
          rw [union_loop_eq_nil_nil]
          exact union_loop_base hcur hres hsep
      | x :: xs, [] =>
          rcases hpair : irange_union_internal cur x [] with ⟨apps, ret⟩
          have hacc : irange_union_internal cur x res = (res ++ apps, ret) := by
            rw [irange_union_internal_acc, hpair]
          rw [union_loop_eq_cons_nil, hacc]
          obtain ⟨hret, hvres', hsep', hrest_lo, hother_lo, hD', hformula⟩ :=
            irange_union_internal_step (t := ([] : List IndexRange))
              hcur hva hres hsep hloa (by simp) (by simp)
              (by simpa using hD) hpair
          obtain ⟨hvout, hfout⟩ :=
            IH xs [] ret (res ++ apps) (by simp at hlen ⊢; omega)
              (rlist_valid_tail hva) rlist_valid_nil hret hvres' hsep'
              hrest_lo hother_lo (by simpa using hD')
          refine ⟨hvout, fun i => ?_⟩
          rw [hfout i]
          exact hformula i
      | [], y :: ys =>
          rcases hpair : irange_union_internal cur y [] with ⟨apps, ret⟩
          have hacc : irange_union_internal cur y res = (res ++ apps, ret) := by
            rw [irange_union_internal_acc, hpair]
          rw [union_loop_eq_nil_cons, hacc]
          obtain ⟨hret, hvres', hsep', hrest_lo, hother_lo, hD', hformula⟩ :=
            irange_union_internal_step (t := ([] : List IndexRange))
              hcur hvb hres hsep hlob (by simp) (by simp)
              (by simpa using hD.symm) hpair
          obtain ⟨hvout, hfout⟩ :=
            IH [] ys ret (res ++ apps) (by simp at hlen ⊢; omega)
              rlist_valid_nil (rlist_valid_tail hvb) hret hvres' hsep'
              hother_lo hrest_lo (by simpa using hD'.symm)
          refine ⟨hvout, fun i => ?_⟩
          rw [hfout i,
            union_find_comm (irange_list_find ([] : List IndexRange) i)
              (irange_list_find (y :: ys) i),
            union_find_comm (irange_list_find ([] : List IndexRange) i)
              (irange_list_find ys i)]
          exact hformula i
      | x :: xs, y :: ys =>
          by_cases hxy : x.lower ≤ y.lower
          · rcases hpair : irange_union_internal cur x [] with ⟨apps, ret⟩
            have hacc : irange_union_internal cur x res = (res ++ apps, ret) := by
              rw [irange_union_internal_acc, hpair]
            rw [union_loop_eq_cons_cons_left x xs y ys cur res hxy, hacc]
            have hmin : ∀ r ∈ y :: ys, x.lower ≤ r.lower := by
              intro r hr
              rcases List.mem_cons.mp hr with rfl | hr
              · exact hxy
              · have h1 := rlist_valid_cons_lt hvb r hr
                have h2 := rlist_valid_head hvb
                omega
            obtain ⟨hret, hvres', hsep', hrest_lo, hother_lo, hD', hformula⟩ :=
              irange_union_internal_step (t := y :: ys)
                hcur hva hres hsep hloa hlob hmin hD hpair
            obtain ⟨hvout, hfout⟩ :=
              IH xs (y :: ys) ret (res ++ apps) (by simp at hlen ⊢; omega)
                (rlist_valid_tail hva) hvb hret hvres' hsep'
                hrest_lo hother_lo hD'
            refine ⟨hvout, fun i => ?_⟩
            rw [hfout i]
            exact hformula i
          · rcases hpair : irange_union_internal cur y [] with ⟨apps, ret⟩
            have hacc : irange_union_internal cur y res = (res ++ apps, ret) := by
              rw [irange_union_internal_acc, hpair]
            rw [union_loop_eq_cons_cons_right x xs y ys cur res hxy, hacc]
            have hmin : ∀ r ∈ x :: xs, y.lower ≤ r.lower := by
              intro r hr
              rcases List.mem_cons.mp hr with rfl | hr
              · omega
              · have h1 := rlist_valid_cons_lt hva r hr
                have h2 := rlist_valid_head hva
                omega
            obtain ⟨hret, hvres', hsep', hrest_lo, hother_lo, hD', hformula⟩ :=
              irange_union_internal_step (t := x :: xs)
                hcur hvb hres hsep hlob hloa hmin hD.symm hpair
            obtain ⟨hvout, hfout⟩ :=
              IH (x :: xs) ys ret (res ++ apps) (by simp at hlen ⊢; omega)
                hva (rlist_valid_tail hvb) hret hvres' hsep'
                hother_lo hrest_lo hD'.symm
            refine ⟨hvout, fun i => ?_⟩
            rw [hfout i,
              union_find_comm (irange_list_find (x :: xs) i)
                (irange_list_find (y :: ys) i),
              union_find_comm (irange_list_find (x :: xs) i)
                (irange_list_find ys i)]
            exact hformula i

end Rangeset

namespace Rangeset

theorem union_loop_start_nil_nil :
    irange_list_union_loop [] [] none [] = [] := by
  rw [irange_list_union_loop]

theorem union_loop_start_cons_nil (x : IndexRange) (xs res : List IndexRange) :
    irange_list_union_loop (x :: xs) [] none res =
      irange_list_union_loop xs [] (some x) res := by
  rw [irange_list_union_loop]

theorem union_loop_start_nil_cons (y : IndexRange) (ys res : List IndexRange) :
    irange_list_union_loop [] (y :: ys) none res =
      irange_list_union_loop [] ys (some y) res := by
  rw [irange_list_union_loop]

theorem union_loop_start_cons_cons_left (x : IndexRange) (xs : List IndexRange)
    (y : IndexRange) (ys res : List IndexRange) (hxy : x.lower ≤ y.lower) :
    irange_list_union_loop (x :: xs) (y :: ys) none res =
      irange_list_union_loop xs (y :: ys) (some x) res := by
  rw [irange_list_union_loop, if_pos hxy]

theorem union_loop_start_cons_cons_right (x : IndexRange) (xs : List IndexRange)
    (y : IndexRange) (ys res : List IndexRange) (hxy : ¬ x.lower ≤ y.lower) :
    irange_list_union_loop (x :: xs) (y :: ys) none res =
      irange_list_union_loop (x :: xs) ys (some y) res := by
  rw [irange_list_union_loop, if_neg hxy]

theorem rlist_valid_lower_le {r : IndexRange} {rs : List IndexRange}
    (h : rlist_valid (r :: rs)) : ∀ s ∈ rs, r.lower ≤ s.lower := by
  intro s hs
  have h1 := rlist_valid_cons_lt h s hs
  have h2 := rlist_valid_head h
  omega

/-- The union of two valid range lists is a valid range list that covers an
ordinal exactly when one of the inputs does, with `AND`-combined lossiness on
the overlap and the covering side's lossiness elsewhere. -/
theorem irange_list_union_spec (a b : List IndexRange)
    (ha : rlist_valid a) (hb : rlist_valid b) :
    rlist_valid (irange_list_union a b) ∧
    ∀ i, irange_list_find (irange_list_union a b) i =
      union_find (irange_list_find a i) (irange_list_find b i) := by
  unfold irange_list_union
  match a, b with
  | [], [] =>
      rw [union_loop_start_nil_nil]
      exact ⟨rlist_valid_nil, fun i => rfl⟩
  | x :: xs, [] =>
      rw [union_loop_start_cons_nil]
      obtain ⟨hvout, hfout⟩ :=
        irange_list_union_loop_spec (xs.length + 0) xs [] x [] (le_refl _)
          (rlist_valid_tail ha) rlist_valid_nil (rlist_valid_head ha)
          rlist_valid_nil (by simp) (rlist_valid_lower_le ha) (by simp)
          (Or.inl (rlist_valid_cons_lt ha))
      refine ⟨hvout, fun i => ?_⟩
      rw [hfout i, irange_list_find_cons_valid ha]
      simp only [irange_list_find]
      rw [union_find_none_right]
      rcases Nat.lt_or_ge i x.lower with hi | hi
      · rw [if_pos hi]
        have h1 : range_find x i = none := by
          simp only [range_find]; rw [if_neg (by omega)]
        have h2 : irange_list_find xs i = none :=
          irange_list_find_none_of_lower_ge (rlist_valid_lower_le ha) hi
        rw [h1, h2]
        rfl
      · rw [if_neg (show ¬ i < x.lower by omega), union_find_none_right]
  | [], y :: ys =>
      rw [union_loop_start_nil_cons]
      obtain ⟨hvout, hfout⟩ :=
        irange_list_union_loop_spec (0 + ys.length) [] ys y [] (le_refl _)
          rlist_valid_nil (rlist_valid_tail hb) (rlist_valid_head hb)
          rlist_valid_nil (by simp) (by simp) (rlist_valid_lower_le hb)
          (Or.inl (by simp))
      refine ⟨hvout, fun i => ?_⟩
      rw [hfout i, irange_list_find_cons_valid hb]
      simp only [irange_list_find]
      rw [union_find_none_left]
      rcases Nat.lt_or_ge i y.lower with hi | hi
      · rw [if_pos hi]
        have h1 : range_find y i = none := by
          simp only [range_find]; rw [if_neg (by omega)]
        have h2 : irange_list_find ys i = none :=
          irange_list_find_none_of_lower_ge (rlist_valid_lower_le hb) hi
        rw [h1, h2]
        rfl
      · rw [if_neg (show ¬ i < y.lower by omega), union_find_none_left]
  | x :: xs, y :: ys =>
      by_cases hxy : x.lower ≤ y.lower
      · rw [union_loop_start_cons_cons_left x xs y ys [] hxy]
        have hlob : ∀ r ∈ y :: ys, x.lower ≤ r.lower := by
          intro r hr
          rcases List.mem_cons.mp hr with rfl | hr
          · exact hxy
          · have := rlist_valid_cons_lt hb r hr
            have := rlist_valid_head hb
            omega
        obtain ⟨hvout, hfout⟩ :=
          irange_list_union_loop_spec (xs.length + (y :: ys).length)
            xs (y :: ys) x [] (le_refl _)
            (rlist_valid_tail ha) hb (rlist_valid_head ha)
            rlist_valid_nil (by simp) (rlist_valid_lower_le ha) hlob
            (Or.inl (rlist_valid_cons_lt ha))
        refine ⟨hvout, fun i => ?_⟩
        rw [hfout i, irange_list_find_cons_valid ha]
        rcases Nat.lt_or_ge i x.lower with hi | hi
        · rw [if_pos hi]
          have h1 : range_find x i = none := by
            simp only [range_find]; rw [if_neg (by omega)]
          have h2 : irange_list_find xs i = none :=
            irange_list_find_none_of_lower_ge (rlist_valid_lower_le ha) hi
          have h3 : irange_list_find (y :: ys) i = none :=
            irange_list_find_none_of_lower_ge hlob hi
          rw [h1, h2, h3]
          rfl
        · rw [if_neg (show ¬ i < x.lower by omega), union_find_assoc]
      · rw [union_loop_start_cons_cons_right x xs y ys [] hxy]
        have hloa : ∀ r ∈ x :: xs, y.lower ≤ r.lower := by
          intro r hr
          rcases List.mem_cons.mp hr with rfl | hr
          · omega
          · have := rlist_valid_cons_lt ha r hr
            have := rlist_valid_head ha
            omega
        obtain ⟨hvout, hfout⟩ :=
          irange_list_union_loop_spec ((x :: xs).length + ys.length)
            (x :: xs) ys y [] (le_refl _)
            ha (rlist_valid_tail hb) (rlist_valid_head hb)
            rlist_valid_nil (by simp) hloa (rlist_valid_lower_le hb)
            (Or.inr (rlist_valid_cons_lt hb))
        refine ⟨hvout, fun i => ?_⟩
        rw [hfout i, irange_list_find_cons_valid hb]
        rcases Nat.lt_or_ge i y.lower with hi | hi
        · rw [if_pos hi]
          have h1 : range_find y i = none := by
            simp only [range_find]; rw [if_neg (by omega)]
          have h2 : irange_list_find ys i = none :=
            irange_list_find_none_of_lower_ge (rlist_valid_lower_le hb) hi
          have h3 : irange_list_find (x :: xs) i = none :=
            irange_list_find_none_of_lower_ge hloa hi
          rw [h1, h2, h3]
          rfl
        · rw [if_neg (show ¬ i < y.lower by omega)]
          rw [union_find_comm (irange_list_find (x :: xs) i)
            (union_find (range_find y i) (irange_list_find ys i)),
            union_find_assoc, union_find_comm (irange_list_find (x :: xs) i)
              (irange_list_find ys i), ← union_find_assoc]

end Rangeset

namespace Rangeset

theorem inter_find_none_left (y : Option Bool) : inter_find none y = none := by
  cases y <;> rfl

theorem inter_find_none_right (x : Option Bool) : inter_find x none = none := by
  cases x <;> rfl

theorem ofind_or_assoc (x y z : Option Bool) :
    ofind_or (ofind_or x y) z = ofind_or x (ofind_or y z) := by
  cases x <;> cases y <;> cases z <;> rfl

theorem irange_list_find_some {l : List IndexRange} {i : Nat} {v : Bool}
    (h : irange_list_find l i = some v) :
    ∃ r ∈ l, r.lower ≤ i ∧ i ≤ r.upper ∧ r.lossy = v := by
  induction l with
  | nil => simp [irange_list_find] at h
  | cons r rs ih =>
      rw [irange_list_find_cons] at h
      rcases hr : range_find r i with _ | w
      · rw [hr] at h
        obtain ⟨s, hs, h1, h2, h3⟩ := ih h
        exact ⟨s, List.mem_cons_of_mem r hs, h1, h2, h3⟩
      · rw [hr] at h
        simp only [ofind_or] at h
        simp only [range_find] at hr
        split_ifs at hr with hc
        refine ⟨r, List.mem_cons_self r rs, hc.1, hc.2, ?_⟩
        cases h; cases hr; rfl
  
theorem irange_list_find_cons_of_none {r : IndexRange} {rs : List IndexRange}
    {i : Nat} (h : range_find r i = none) :
    irange_list_find (r :: rs) i = irange_list_find rs i := by
  rw [irange_list_find_cons, h]
  rfl

theorem rlist_valid_of_append_left {l1 l2 : List IndexRange}
    (h : rlist_valid (l1 ++ l2)) : rlist_valid l1 :=
  ⟨fun r hr => h.1 r (List.mem_append_left l2 hr), (List.chain'_append.mp h.2).1⟩

theorem rlist_valid_append_lt {l1 l2 : List IndexRange}
    (h : rlist_valid (l1 ++ l2)) : ∀ r ∈ l1, ∀ s ∈ l2, r.upper < s.lower := by
  induction l1 with
  | nil => intro r hr; cases hr
  | cons t ts ih =>
      intro r hr s hs
      rcases List.mem_cons.mp hr with rfl | hr
      · exact rlist_valid_cons_lt (by simpa using h) s
          (List.mem_append_right ts hs)
      · exact ih (rlist_valid_tail (by simpa using h)) r hr s hs

theorem getLast?_eq_dropLast_append {l : List IndexRange} {last : IndexRange}
    (h : l.getLast? = some last) : l = l.dropLast ++ [last] := by
  induction l with
  | nil => simp at h
  | cons r rs ih =>
      cases rs with
      | nil => simp at h ⊢; exact h
      | cons s ss =>
          rw [List.getLast?_cons_cons] at h
          have := ih h
          rw [List.dropLast_cons₂, List.cons_append]
          exact congrArg (r :: ·) this

end Rangeset

namespace Rangeset

theorem inter_step_of_no_intersect {ra rb : IndexRange} (res : List IndexRange)
    (h : ¬ iranges_intersect ra rb) :
    irange_list_intersection_step ra rb res = res := by
  simp [irange_list_intersection_step, h]

theorem inter_append_spec (res : List IndexRange) (X : IndexRange)
    (hres : rlist_valid res) (hX : X.lower ≤ X.upper)
    (hgap : ∀ r ∈ res, r.upper < X.lower) :
    rlist_valid (res ++ [X]) ∧
    (∀ r ∈ res ++ [X], r.upper ≤ X.upper) ∧
    (∀ i, irange_list_find (res ++ [X]) i =
      ofind_or (irange_list_find res i) (range_find X i)) := by
  refine ⟨rlist_valid_append hres (rlist_valid_singleton hX)
      (fun r hr s hs => by simp at hs; subst hs; exact hgap r hr), ?_, ?_⟩
  · intro r hr
    rcases List.mem_append.mp hr with hr | hr
    · have := hgap r hr
      omega
    · simp at hr; subst hr; exact le_refl _
  · intro i
    rw [irange_list_find_append, irange_list_find_cons]
    cases irange_list_find res i <;> cases range_find X i <;> rfl

set_option maxHeartbeats 1000000 in
/-- Emitting one intersection fragment `X = intersection_simple ra rb` into
the output (with coalescing) behaves like appending `X`'s coverage after the
existing output. -/
theorem inter_step_spec (ra rb : IndexRange) (res : List IndexRange)
    (hI : iranges_intersect ra rb)
    (hra : ra.lower ≤ ra.upper) (hrb : rb.lower ≤ rb.upper)
    (hres : rlist_valid res)
    (hgap : ∀ r ∈ res, r.upper < max ra.lower rb.lower) :
    rlist_valid (irange_list_intersection_step ra rb res) ∧
    (∀ r ∈ irange_list_intersection_step ra rb res,
      r.upper ≤ min ra.upper rb.upper) ∧
    (∀ i, irange_list_find (irange_list_intersection_step ra rb res) i =
      ofind_or (irange_list_find res i)
        (range_find (irange_intersection_simple ra rb) i)) := by
  have hIl : ra.lower ≤ rb.upper := hI.1
  have hIr : rb.lower ≤ ra.upper := hI.2
  have hXl : (irange_intersection_simple ra rb).lower = max ra.lower rb.lower := rfl
  have hXu : (irange_intersection_simple ra rb).upper = min ra.upper rb.upper := rfl
  have hX : (irange_intersection_simple ra rb).lower ≤
      (irange_intersection_simple ra rb).upper := by
    rw [hXl, hXu]; omega
  have hgap' : ∀ r ∈ res, r.upper < (irange_intersection_simple ra rb).lower := by
    intro r hr; rw [hXl]; exact hgap r hr
  have hX2 : max ra.lower rb.lower ≤ min ra.upper rb.upper := by omega
  unfold irange_list_intersection_step
  rw [if_pos hI]
  rcases hlast : res.getLast? with _ | last
  · simpa [hXu] using inter_append_spec res _ hres hX hgap'
  · have hmem : last ∈ res := List.mem_of_mem_getLast? (by simp [hlast])
    have hlastv : last.lower ≤ last.upper := hres.1 last hmem
    have hlgap : last.upper < (irange_intersection_simple ra rb).lower :=
      hgap' last hmem
    dsimp only
    by_cases hadj : iranges_adjoin last (irange_intersection_simple ra rb) ∧
        last.lossy = (irange_intersection_simple ra rb).lossy
    · rw [if_pos hadj]
      have hadj' : last.upper + 1 = (irange_intersection_simple ra rb).lower := by
        have h := hadj.1
        simp only [iranges_adjoin, irb_pred] at h
        rcases h with h | h <;> omega
      have hdecomp : res = res.dropLast ++ [last] :=
        getLast?_eq_dropLast_append hlast
      have hdl : rlist_valid res.dropLast :=
        rlist_valid_of_append_left (hdecomp ▸ hres)
      have hcross : ∀ r ∈ res.dropLast, r.upper < last.lower := by
        intro r hr
        exact rlist_valid_append_lt (hdecomp ▸ hres) r hr last (by simp)
      have hmu : (irange_union_simple last (irange_intersection_simple ra rb)).upper =
          (irange_intersection_simple ra rb).upper := by
        dsimp only [irange_union_simple, make_irange]
        omega
      have hml : (irange_union_simple last (irange_intersection_simple ra rb)).lower =
          last.lower := by
        dsimp only [irange_union_simple, make_irange]
        omega
      refine ⟨?_, ?_, ?_⟩
      · refine rlist_valid_append hdl
          (rlist_valid_singleton (by rw [hmu, hml]; omega))
          (fun r hr s hs => by
            simp at hs; subst hs
            rw [hml]
            exact hcross r hr)
      · intro r hr
        rcases List.mem_append.mp hr with hr | hr
        · have h1 := hcross r hr
          have h2 := hgap last hmem
          omega
        · simp at hr; subst hr
          rw [hmu, hXu]
      · intro i
        conv_rhs => rw [hdecomp]
        rw [irange_list_find_append, irange_list_find_append,
          irange_list_find_cons, irange_list_find_cons, ofind_or_assoc]
        simp only [irange_list_find, ofind_or_none_right]
        congr 1
        have hloss := hadj.2
        dsimp only [irange_intersection_simple, make_irange] at hloss
        dsimp only [range_find, irange_union_simple, irange_intersection_simple,
          make_irange] at hadj' hlgap ⊢
        split_ifs <;> (try simp only [ofind_or]) <;>
          first
            | rfl
            | omega
            | rw [hloss, Bool.and_self]
    · rw [if_neg hadj]
      simpa [hXu] using inter_append_spec res _ hres hX hgap'

end Rangeset

namespace Rangeset

theorem range_find_none_of_lt {r : IndexRange} {i : Nat} (h : i < r.lower) :
    range_find r i = none := by
  simp only [range_find]; rw [if_neg (by omega)]

theorem range_find_none_of_gt {r : IndexRange} {i : Nat} (h : r.upper < i) :
    range_find r i = none := by
  simp only [range_find]; rw [if_neg (by omega)]

theorem range_find_some {r : IndexRange} {i : Nat}
    (h1 : r.lower ≤ i) (h2 : i ≤ r.upper) : range_find r i = some r.lossy := by
  simp only [range_find]; rw [if_pos ⟨h1, h2⟩]

/-- Advancing the A pointer after emitting an intersection fragment loses no
coverage: everything `ra` can still contribute lies inside the fragment. -/
theorem inter_shift_a {ra rb : IndexRange} {as_ bs : List IndexRange}
    (hvA : rlist_valid (ra :: as_)) (hvB : rlist_valid (rb :: bs))
    (hI : iranges_intersect ra rb) (hlt : ra.upper < rb.upper) :
    ∀ i, inter_find (irange_list_find (ra :: as_) i)
        (irange_list_find (rb :: bs) i) =
      ofind_or (range_find (irange_intersection_simple ra rb) i)
        (inter_find (irange_list_find as_ i) (irange_list_find (rb :: bs) i)) := by
  have hra := rlist_valid_head hvA
  have hrb := rlist_valid_head hvB
  have haslo := rlist_valid_cons_lt hvA
  have hbslo := rlist_valid_cons_lt hvB
  have hI1 : ra.lower ≤ rb.upper := hI.1
  have hI2 : rb.lower ≤ ra.upper := hI.2
  intro i
  rcases Nat.lt_or_ge i (max ra.lower rb.lower) with hz | hz
  · have hXnone : range_find (irange_intersection_simple ra rb) i = none := by
      apply range_find_none_of_lt
      dsimp only [irange_intersection_simple, make_irange]
      omega
    have hasnone : irange_list_find as_ i = none :=
      irange_list_find_none_of_lower_ge (fun s hs => by have := haslo s hs; omega)
        (show i < ra.upper + 1 by omega)
    rw [hXnone, hasnone]
    simp only [ofind_or, inter_find_none_left]
    rcases Nat.lt_or_ge i ra.lower with h | h
    · rw [irange_list_find_cons_of_none (range_find_none_of_lt h), hasnone,
        inter_find_none_left]
    · have hblow : i < rb.lower := by omega
      have : irange_list_find (rb :: bs) i = none :=
        irange_list_find_none_of_lower_ge
          (fun s hs => by
            rcases List.mem_cons.mp hs with rfl | hs
            · exact le_refl _
            · have := hbslo s hs; omega) hblow
      rw [this, inter_find_none_right]
  · rcases le_or_lt i ra.upper with h3 | h3
    · have hXsome : range_find (irange_intersection_simple ra rb) i =
          some (ra.lossy || rb.lossy) := by
        have := range_find_some (r := irange_intersection_simple ra rb) (i := i)
          (by dsimp only [irange_intersection_simple, make_irange]; omega)
          (by dsimp only [irange_intersection_simple, make_irange]; omega)
        exact this
      rw [hXsome, irange_list_find_cons, irange_list_find_cons,
        range_find_some (show ra.lower ≤ i by omega) h3,
        range_find_some (show rb.lower ≤ i by omega) (show i ≤ rb.upper by omega)]
      rfl
    · rw [irange_list_find_cons_of_none (range_find_none_of_gt h3),
        range_find_none_of_gt
          (show (irange_intersection_simple ra rb).upper < i by
            dsimp only [irange_intersection_simple, make_irange]; omega)]
      rfl

/-- Advancing the B pointer after emitting an intersection fragment loses no
coverage. -/
theorem inter_shift_b {ra rb : IndexRange} {as_ bs : List IndexRange}
    (hvA : rlist_valid (ra :: as_)) (hvB : rlist_valid (rb :: bs))
    (hI : iranges_intersect ra rb) (hlt : rb.upper < ra.upper) :
    ∀ i, inter_find (irange_list_find (ra :: as_) i)
        (irange_list_find (rb :: bs) i) =
      ofind_or (range_find (irange_intersection_simple ra rb) i)
        (inter_find (irange_list_find (ra :: as_) i) (irange_list_find bs i)) := by
  have hra := rlist_valid_head hvA
  have hrb := rlist_valid_head hvB
  have haslo := rlist_valid_cons_lt hvA
  have hbslo := rlist_valid_cons_lt hvB
  have hI1 : ra.lower ≤ rb.upper := hI.1
  have hI2 : rb.lower ≤ ra.upper := hI.2
  intro i
  rcases Nat.lt_or_ge i (max ra.lower rb.lower) with hz | hz
  · have hXnone : range_find (irange_intersection_simple ra rb) i = none := by
      apply range_find_none_of_lt
      dsimp only [irange_intersection_simple, make_irange]
      omega
    have hbsnone : irange_list_find bs i = none :=
      irange_list_find_none_of_lower_ge (fun s hs => by have := hbslo s hs; omega)
        (show i < rb.upper + 1 by omega)
    rw [hXnone, hbsnone]
    simp only [ofind_or, inter_find_none_right]
    rcases Nat.lt_or_ge i rb.lower with h | h
    · rw [irange_list_find_cons_of_none (range_find_none_of_lt h), hbsnone,
        inter_find_none_right]
    · have halow : i < ra.lower := by omega
      have : irange_list_find (ra :: as_) i = none :=
        irange_list_find_none_of_lower_ge
          (fun s hs => by
            rcases List.mem_cons.mp hs with rfl | hs
            · exact le_refl _
            · have := haslo s hs; omega) halow
      rw [this, inter_find_none_left]
  · rcases le_or_lt i rb.upper with h3 | h3
    · have hXsome : range_find (irange_intersection_simple ra rb) i =
          some (ra.lossy || rb.lossy) :=
        range_find_some
          (by dsimp only [irange_intersection_simple, make_irange]; omega)
          (by dsimp only [irange_intersection_simple, make_irange]; omega)
      rw [hXsome, irange_list_find_cons, irange_list_find_cons,
        range_find_some (show ra.lower ≤ i by omega) (show i ≤ ra.upper by omega),
        range_find_some (show rb.lower ≤ i by omega) h3]
      rfl
    · rw [irange_list_find_cons_of_none (r := rb) (range_find_none_of_gt h3),
        range_find_none_of_gt
          (show (irange_intersection_simple ra rb).upper < i by
            dsimp only [irange_intersection_simple, make_irange]; omega)]
      rfl

/-- Advancing both pointers (equal upper bounds) loses no coverage. -/
theorem inter_shift_both {ra rb : IndexRange} {as_ bs : List IndexRange}
    (hvA : rlist_valid (ra :: as_)) (hvB : rlist_valid (rb :: bs))
    (hI : iranges_intersect ra rb) (heq : ra.upper = rb.upper) :
    ∀ i, inter_find (irange_list_find (ra :: as_) i)
        (irange_list_find (rb :: bs) i) =
      ofind_or (range_find (irange_intersection_simple ra rb) i)
        (inter_find (irange_list_find as_ i) (irange_list_find bs i)) := by
  have hra := rlist_valid_head hvA
  have hrb := rlist_valid_head hvB
  have haslo := rlist_valid_cons_lt hvA
  have hbslo := rlist_valid_cons_lt hvB
  have hI1 : ra.lower ≤ rb.upper := hI.1
  have hI2 : rb.lower ≤ ra.upper := hI.2
  intro i
  rcases Nat.lt_or_ge i (max ra.lower rb.lower) with hz | hz
  · have hXnone : range_find (irange_intersection_simple ra rb) i = none := by
      apply range_find_none_of_lt
      dsimp only [irange_intersection_simple, make_irange]
      omega
    have hasnone : irange_list_find as_ i = none :=
      irange_list_find_none_of_lower_ge (fun s hs => by have := haslo s hs; omega)
        (show i < ra.upper + 1 by omega)
    rw [hXnone, hasnone]
    simp only [ofind_or, inter_find_none_left]
    rcases Nat.lt_or_ge i ra.lower with h | h
    · rw [irange_list_find_cons_of_none (range_find_none_of_lt h), hasnone,
        inter_find_none_left]
    · have hblow : i < rb.lower := by omega
      have hbsnone : irange_list_find bs i = none :=
        irange_list_find_none_of_lower_ge
          (fun s hs => by have := hbslo s hs; omega)
          (show i < rb.upper + 1 by omega)
      rw [irange_list_find_cons_of_none (r := rb) (range_find_none_of_lt hblow),
        hbsnone, inter_find_none_right]
  · rcases le_or_lt i ra.upper with h3 | h3
    · have hXsome : range_find (irange_intersection_simple ra rb) i =
          some (ra.lossy || rb.lossy) :=
        range_find_some
          (by dsimp only [irange_intersection_simple, make_irange]; omega)
          (by dsimp only [irange_intersection_simple, make_irange]; omega)
      rw [hXsome, irange_list_find_cons, irange_list_find_cons,
        range_find_some (show ra.lower ≤ i by omega) h3,
        range_find_some (show rb.lower ≤ i by omega) (show i ≤ rb.upper by omega)]
      rfl
    · rw [irange_list_find_cons_of_none (range_find_none_of_gt h3),
        irange_list_find_cons_of_none (r := rb)
          (range_find_none_of_gt (show rb.upper < i by omega)),
        range_find_none_of_gt
          (show (irange_intersection_simple ra rb).upper < i by
            dsimp only [irange_intersection_simple, make_irange]; omega)]
      rfl

end Rangeset

namespace Rangeset

theorem inter_shift_a_no {ra rb : IndexRange} {as_ bs : List IndexRange}
    (hvA : rlist_valid (ra :: as_)) (hvB : rlist_valid (rb :: bs))
    (hI : ¬ iranges_intersect ra rb) (hlt : ra.upper < rb.upper) :
    ∀ i, inter_find (irange_list_find (ra :: as_) i)
        (irange_list_find (rb :: bs) i) =
      inter_find (irange_list_find as_ i) (irange_list_find (rb :: bs) i) := by
  have hra := rlist_valid_head hvA
  have hbslo := rlist_valid_cons_lt hvB
  have hrb := rlist_valid_head hvB
  have hlb : ra.upper < rb.lower := by
    simp only [iranges_intersect, not_and, not_le] at hI
    omega
  intro i
  by_cases hcov : ra.lower ≤ i ∧ i ≤ ra.upper
  · have hbn : irange_list_find (rb :: bs) i = none :=
      irange_list_find_none_of_lower_ge
        (fun s hs => by
          rcases List.mem_cons.mp hs with rfl | hs
          · exact le_refl _
          · have := hbslo s hs; omega)
        (by omega)
    rw [hbn, inter_find_none_right, inter_find_none_right]
  · rw [irange_list_find_cons_of_none (by simp only [range_find]; rw [if_neg hcov])]

theorem inter_shift_b_no {ra rb : IndexRange} {as_ bs : List IndexRange}
    (hvA : rlist_valid (ra :: as_)) (hvB : rlist_valid (rb :: bs))
    (hI : ¬ iranges_intersect ra rb) (hlt : rb.upper < ra.upper) :
    ∀ i, inter_find (irange_list_find (ra :: as_) i)
        (irange_list_find (rb :: bs) i) =
      inter_find (irange_list_find (ra :: as_) i) (irange_list_find bs i) := by
  have hrb := rlist_valid_head hvB
  have haslo := rlist_valid_cons_lt hvA
  have hra := rlist_valid_head hvA
  have hla : rb.upper < ra.lower := by
    simp only [iranges_intersect, not_and, not_le] at hI
    omega
  intro i
  by_cases hcov : rb.lower ≤ i ∧ i ≤ rb.upper
  · have han : irange_list_find (ra :: as_) i = none :=
      irange_list_find_none_of_lower_ge
        (fun s hs => by
          rcases List.mem_cons.mp hs with rfl | hs
          · exact le_refl _
          · have := haslo s hs; omega)
        (by omega)
    rw [han, inter_find_none_left, inter_find_none_left]
  · rw [irange_list_find_cons_of_none (r := rb)
      (by simp only [range_find]; rw [if_neg hcov])]

theorem inter_shift_both_no {ra rb : IndexRange} {as_ bs : List IndexRange}
    (hvA : rlist_valid (ra :: as_)) (hvB : rlist_valid (rb :: bs))
    (hI : ¬ iranges_intersect ra rb) (heq : ra.upper = rb.upper) :
    ∀ i, inter_find (irange_list_find (ra :: as_) i)
        (irange_list_find (rb :: bs) i) =
      inter_find (irange_list_find as_ i) (irange_list_find bs i) := by
  have hra := rlist_valid_head hvA
  have hrb := rlist_valid_head hvB
  have haslo := rlist_valid_cons_lt hvA
  have hbslo := rlist_valid_cons_lt hvB
  have : ra.upper < rb.lower ∨ rb.upper < ra.lower := by
    simp only [iranges_intersect, not_and, not_le] at hI
    omega
  intro i
  rcases this with hgt | hgt
  · rw [irange_list_find_cons_of_none (r := rb)
      (by apply range_find_none_of_lt; omega)]
    by_cases hcov : ra.lower ≤ i ∧ i ≤ ra.upper
    · have hbn : irange_list_find bs i = none :=
        irange_list_find_none_of_lower_ge
          (fun s hs => by have := hbslo s hs; omega)
          (show i < rb.upper + 1 by omega)
      rw [hbn, inter_find_none_right, inter_find_none_right]
    · rw [irange_list_find_cons_of_none
        (by simp only [range_find]; rw [if_neg hcov])]
  · rw [irange_list_find_cons_of_none (r := ra)
      (by apply range_find_none_of_lt; omega)]
    by_cases hcov : rb.lower ≤ i ∧ i ≤ rb.upper
    · have han : irange_list_find as_ i = none :=
        irange_list_find_none_of_lower_ge
          (fun s hs => by have := haslo s hs; omega)
          (show i < ra.upper + 1 by omega)
      rw [han, inter_find_none_left, inter_find_none_left]
    · rw [irange_list_find_cons_of_none (r := rb)
        (by simp only [range_find]; rw [if_neg hcov])]

theorem inter_loop_eq_nil_left (b res : List IndexRange) :
    irange_list_intersection_loop [] b res = res := by
  rw [irange_list_intersection_loop]
  intro ra as_ rb bs h1 h2
  cases h1

theorem inter_loop_eq_nil_right (a res : List IndexRange) :
    irange_list_intersection_loop a [] res = res := by
  cases a <;> rw [irange_list_intersection_loop] <;>
    intro ra as_ rb bs h1 h2 <;> (try cases h1) <;> cases h2

theorem inter_loop_eq_both {ra rb : IndexRange} (as_ bs res : List IndexRange)
    (h1 : ra.upper ≤ rb.upper) (h2 : ra.upper ≥ rb.upper) :
    irange_list_intersection_loop (ra :: as_) (rb :: bs) res =
      irange_list_intersection_loop as_ bs
        (irange_list_intersection_step ra rb res) := by
  rw [irange_list_intersection_loop]
  simp only [if_pos h1, if_pos h2]

theorem inter_loop_eq_a {ra rb : IndexRange} (as_ bs res : List IndexRange)
    (h1 : ra.upper ≤ rb.upper) (h2 : ¬ ra.upper ≥ rb.upper) :
    irange_list_intersection_loop (ra :: as_) (rb :: bs) res =
      irange_list_intersection_loop as_ (rb :: bs)
        (irange_list_intersection_step ra rb res) := by
  rw [irange_list_intersection_loop]
  simp only [if_pos h1, if_neg h2]

theorem inter_loop_eq_b {ra rb : IndexRange} (as_ bs res : List IndexRange)
    (h1 : ¬ ra.upper ≤ rb.upper) :
    irange_list_intersection_loop (ra :: as_) (rb :: bs) res =
      irange_list_intersection_loop (ra :: as_) bs
        (irange_list_intersection_step ra rb res) := by
  rw [irange_list_intersection_loop]
  simp only [if_neg h1]

end Rangeset

namespace Rangeset

set_option maxHeartbeats 1000000 in
/-- Invariant-carrying specification of the intersection sweep: the output
extends the accumulated result with exactly the ordinals covered by both
remaining inputs, with `OR`-combined lossiness. -/
theorem irange_list_intersection_loop_spec (N : Nat) :
    ∀ (a b res : List IndexRange),
      a.length + b.length ≤ N →
      rlist_valid a → rlist_valid b → rlist_valid res →
      ((∀ r ∈ res, ∀ s ∈ a, r.upper < s.lower) ∨
       (∀ r ∈ res, ∀ s ∈ b, r.upper < s.lower)) →
      rlist_valid (irange_list_intersection_loop a b res) ∧
      ∀ i, irange_list_find (irange_list_intersection_loop a b res) i =
        ofind_or (irange_list_find res i)
          (inter_find (irange_list_find a i) (irange_list_find b i)) := by
  induction N with
  | zero =>
      intro a b res hlen hva hvb hres hK
      have ha : a = [] := List.length_eq_zero.mp (by omega)
      subst ha
      rw [inter_loop_eq_nil_left]
      refine ⟨hres, fun i => ?_⟩
      simp only [irange_list_find, inter_find_none_left, ofind_or_none_right]
  | succ N IH =>
      intro a b res hlen hva hvb hres hK
      match a, b with
      | [], b =>
          rw [inter_loop_eq_nil_left]
          refine ⟨hres, fun i => ?_⟩
          simp only [irange_list_find, inter_find_none_left, ofind_or_none_right]
      | ra :: as_, [] =>
          rw [inter_loop_eq_nil_right]
          refine ⟨hres, fun i => ?_⟩
          simp only [irange_list_find, inter_find_none_right, ofind_or_none_right]
      | ra :: as_, rb :: bs =>
          have hra := rlist_valid_head hva
          have hrb := rlist_valid_head hvb
          have haslo := rlist_valid_cons_lt hva
          have hbslo := rlist_valid_cons_lt hvb
          have hgap : ∀ r ∈ res, r.upper < max ra.lower rb.lower := by
            rcases hK with h | h
            · intro r hr
              have := h r hr ra (List.mem_cons_self ra as_)
              omega
            · intro r hr
              have := h r hr rb (List.mem_cons_self rb bs)
              omega
          by_cases hI : iranges_intersect ra rb
          · obtain ⟨hv1, hb1, hf1⟩ := inter_step_spec ra rb res hI hra hrb hres hgap
            by_cases hle : ra.upper ≤ rb.upper
            · by_cases hge : ra.upper ≥ rb.upper
              · have hub : ra.upper = rb.upper := by omega
                rw [inter_loop_eq_both as_ bs res hle hge]
                obtain ⟨hvout, hfout⟩ :=
                  IH as_ bs (irange_list_intersection_step ra rb res)
                    (by simp at hlen ⊢; omega)
                    (rlist_valid_tail hva) (rlist_valid_tail hvb) hv1
                    (Or.inl (fun r hr s hs => by
                      have h1 := hb1 r hr
                      have h2 := haslo s hs
                      omega))
                refine ⟨hvout, fun i => ?_⟩
                rw [hfout i, hf1 i, ofind_or_assoc, inter_shift_both hva hvb hI hub i]
              · rw [inter_loop_eq_a as_ bs res hle hge]
                obtain ⟨hvout, hfout⟩ :=
                  IH as_ (rb :: bs) (irange_list_intersection_step ra rb res)
                    (by simp at hlen ⊢; omega)
                    (rlist_valid_tail hva) hvb hv1
                    (Or.inl (fun r hr s hs => by
                      have h1 := hb1 r hr
                      have h2 := haslo s hs
                      omega))
                refine ⟨hvout, fun i => ?_⟩
                rw [hfout i, hf1 i, ofind_or_assoc,
                  inter_shift_a hva hvb hI (by omega) i]
            · rw [inter_loop_eq_b as_ bs res hle]
              obtain ⟨hvout, hfout⟩ :=
                IH (ra :: as_) bs (irange_list_intersection_step ra rb res)
                  (by simp at hlen ⊢; omega)
                  hva (rlist_valid_tail hvb) hv1
                  (Or.inr (fun r hr s hs => by
                    have h1 := hb1 r hr
                    have h2 := hbslo s hs
                    omega))
              refine ⟨hvout, fun i => ?_⟩
              rw [hfout i, hf1 i, ofind_or_assoc,
                inter_shift_b hva hvb hI (by omega) i]
          · have hstep := inter_step_of_no_intersect res hI
            by_cases hle : ra.upper ≤ rb.upper
            · by_cases hge : ra.upper ≥ rb.upper
              · have hub : ra.upper = rb.upper := by omega
                rw [inter_loop_eq_both as_ bs res hle hge, hstep]
                obtain ⟨hvout, hfout⟩ :=
                  IH as_ bs res (by simp at hlen ⊢; omega)
                    (rlist_valid_tail hva) (rlist_valid_tail hvb) hres
                    (by
                      rcases hK with h | h
                      · exact Or.inl (fun r hr s hs =>
                          h r hr s (List.mem_cons_of_mem ra hs))
                      · exact Or.inr (fun r hr s hs =>
                          h r hr s (List.mem_cons_of_mem rb hs)))
                refine ⟨hvout, fun i => ?_⟩
                rw [hfout i, inter_shift_both_no hva hvb hI hub i]
              · rw [inter_loop_eq_a as_ bs res hle hge, hstep]
                obtain ⟨hvout, hfout⟩ :=
                  IH as_ (rb :: bs) res (by simp at hlen ⊢; omega)
                    (rlist_valid_tail hva) hvb hres
                    (by
                      rcases hK with h | h
                      · exact Or.inl (fun r hr s hs =>
                          h r hr s (List.mem_cons_of_mem ra hs))
                      · exact Or.inr h)
                refine ⟨hvout, fun i => ?_⟩
                rw [hfout i, inter_shift_a_no hva hvb hI (by omega) i]
            · rw [inter_loop_eq_b as_ bs res hle, hstep]
              obtain ⟨hvout, hfout⟩ :=
                IH (ra :: as_) bs res (by simp at hlen ⊢; omega)
                  hva (rlist_valid_tail hvb) hres
                  (by
                    rcases hK with h | h
                    · exact Or.inl h
                    · exact Or.inr (fun r hr s hs =>
                        h r hr s (List.mem_cons_of_mem rb hs)))
              refine ⟨hvout, fun i => ?_⟩
              rw [hfout i, inter_shift_b_no hva hvb hI (by omega) i]

/-- The intersection of two valid range lists is a valid range list covering
exactly the ordinals covered by both inputs, with `OR`-combined lossiness. -/
theorem irange_list_intersection_spec (a b : List IndexRange)
    (ha : rlist_valid a) (hb : rlist_valid b) :
    rlist_valid (irange_list_intersection a b) ∧
    ∀ i, irange_list_find (irange_list_intersection a b) i =
      inter_find (irange_list_find a i) (irange_list_find b i) := by
  unfold irange_list_intersection
  obtain ⟨hv, hf⟩ :=
    irange_list_intersection_loop_spec (a.length + b.length) a b []
      (le_refl _) ha hb rlist_valid_nil (Or.inl (by simp))
  exact ⟨hv, fun i => by rw [hf i]; rfl⟩

end Rangeset

namespace Rangeset

theorem iranges_intersect_comm_eq (a b : IndexRange) :
    iranges_intersect b a = iranges_intersect a b := by
  simp only [iranges_intersect]
  exact propext ⟨fun ⟨x, y⟩ => ⟨y, x⟩, fun ⟨x, y⟩ => ⟨y, x⟩⟩

theorem irange_intersection_simple_comm (a b : IndexRange) :
    irange_intersection_simple b a = irange_intersection_simple a b := by
  simp only [irange_intersection_simple, make_irange, Nat.max_comm, Nat.min_comm,
    Bool.or_comm]

theorem inter_step_comm (ra rb : IndexRange) (res : List IndexRange) :
    irange_list_intersection_step rb ra res =
      irange_list_intersection_step ra rb res := by
  simp only [irange_list_intersection_step, iranges_intersect_comm_eq ra rb,
    irange_intersection_simple_comm ra rb]

theorem irange_list_intersection_loop_comm (N : Nat) :
    ∀ (a b res : List IndexRange), a.length + b.length ≤ N →
      irange_list_intersection_loop a b res =
        irange_list_intersection_loop b a res := by
  induction N with
  | zero =>
      intro a b res hlen
      have ha : a = [] := List.length_eq_zero.mp (by omega)
      have hb : b = [] := List.length_eq_zero.mp (by omega)
      subst ha; subst hb
      rfl
  | succ N IH =>
      intro a b res hlen
      match a, b with
      | [], b => rw [inter_loop_eq_nil_left, inter_loop_eq_nil_right]
      | ra :: as_, [] => rw [inter_loop_eq_nil_left, inter_loop_eq_nil_right]
      | ra :: as_, rb :: bs =>
          rcases Nat.lt_trichotomy ra.upper rb.upper with hlt | heq | hgt
          · rw [inter_loop_eq_a as_ bs res (by omega) (by omega),
              inter_loop_eq_b bs as_ res (by omega),
              inter_step_comm,
              IH as_ (rb :: bs) _ (by simp at hlen ⊢; omega)]
          · rw [inter_loop_eq_both as_ bs res (by omega) (by omega),
              inter_loop_eq_both bs as_ res (by omega) (by omega),
              inter_step_comm,
              IH as_ bs _ (by simp at hlen ⊢; omega)]
          · rw [inter_loop_eq_b as_ bs res (by omega),
              inter_loop_eq_a bs as_ res (by omega) (by omega),
              inter_step_comm,
              IH (ra :: as_) bs _ (by simp at hlen ⊢; omega)]

/-- `irange_list_intersection` is commutative as a function on lists. -/
theorem irange_list_intersection_comm (a b : List IndexRange) :
    irange_list_intersection a b = irange_list_intersection b a := by
  unfold irange_list_intersection
  exact irange_list_intersection_loop_comm (a.length + b.length) a b []
    (le_refl _)


theorem union_find_idem_right (x y : Option Bool) :
    union_find (union_find x y) y = union_find x y := by
  cases x <;> cases y <;>
    simp [union_find, Bool.and_assoc, Bool.and_self]

theorem inter_find_idem_right (x y : Option Bool) :
    inter_find (inter_find x y) y = inter_find x y := by
  cases x <;> cases y <;>
    simp [inter_find, Bool.or_assoc, Bool.or_self]

end Rangeset

namespace Rangeset

/-- **C1**: for every pair of valid range lists A and B (each sorted by lower
bound, non-overlapping, each range having lower ≤ upper),
`irange_list_union(A,B)` returns a list that is sorted and non-overlapping
(`rlist_valid`) and covers exactly the set of ordinals covered by A or B; and
for every ordinal in the result, its lossiness is `lossy_in_A AND lossy_in_B`
when the ordinal is covered by both inputs, and otherwise the lossiness it
has in whichever input covers it (this is exactly `union_find`). -/
theorem C1_union_list_correct (a b : List IndexRange)
    (ha : rlist_valid a) (hb : rlist_valid b) :
    rlist_valid (irange_list_union a b) ∧
    ∀ i, irange_list_find (irange_list_union a b) i =
      union_find (irange_list_find a i) (irange_list_find b i) :=
  irange_list_union_spec a b ha hb

theorem C1_union_list_correct_witness :
    rlist_valid [⟨0, 2, false⟩, ⟨5, 5, true⟩] ∧
    rlist_valid [⟨2, 4, true⟩] ∧
    (rlist_valid (irange_list_union [⟨0, 2, false⟩, ⟨5, 5, true⟩] [⟨2, 4, true⟩]) ∧
     ∀ i, irange_list_find
        (irange_list_union [⟨0, 2, false⟩, ⟨5, 5, true⟩] [⟨2, 4, true⟩]) i =
      union_find (irange_list_find [⟨0, 2, false⟩, ⟨5, 5, true⟩] i)
        (irange_list_find [⟨2, 4, true⟩] i)) :=
  ⟨by constructor <;> simp, by constructor <;> simp,
   C1_union_list_correct [⟨0, 2, false⟩, ⟨5, 5, true⟩] [⟨2, 4, true⟩]
     (by constructor <;> simp) (by constructor <;> simp)⟩

/-- **C2** (counterexample): on A = [(0,2,exact),(5,5,lossy)] and
B = [(2,4,lossy)], `irange_list_union` does *not* return the three ranges
[(0,2,false),(3,4,true),(5,5,true)] claimed: the code coalesces the adjacent
equal-lossiness ranges (3,4) and (5,5) into (3,5). -/
theorem C2_union_example_counterexample :
    irange_list_union [⟨0, 2, false⟩, ⟨5, 5, true⟩] [⟨2, 4, true⟩] ≠
      [⟨0, 2, false⟩, ⟨3, 4, true⟩, ⟨5, 5, true⟩] := by
  have h : irange_list_union [⟨0, 2, false⟩, ⟨5, 5, true⟩] [⟨2, 4, true⟩] =
      [⟨0, 2, false⟩, ⟨3, 5, true⟩] := by
    simp [irange_list_union, irange_list_union_loop, irange_union_internal,
      irange_handle_cover_internal, iranges_intersect, iranges_adjoin,
      irange_union_simple, irange_eq_bounds, irange_cmp_lossiness,
      irb_pred, irb_succ, make_irange]
  rw [h]
  decide

/-- **C2** (amended): on A = [(0,2,exact),(5,5,lossy)] and B = [(2,4,lossy)],
`irange_list_union` returns exactly [(0,2,false),(3,5,true)]: ordinal 2 stays
exact, ordinals 3-4 stay lossy and ordinal 5 stays lossy, but they are
represented as two coalesced ranges, not three. -/
theorem C2_union_example_amended :
    irange_list_union [⟨0, 2, false⟩, ⟨5, 5, true⟩] [⟨2, 4, true⟩] =
      [⟨0, 2, false⟩, ⟨3, 5, true⟩] ∧
    irange_list_find [⟨0, 2, false⟩, ⟨3, 5, true⟩] 2 = some false ∧
    irange_list_find [⟨0, 2, false⟩, ⟨3, 5, true⟩] 3 = some true ∧
    irange_list_find [⟨0, 2, false⟩, ⟨3, 5, true⟩] 4 = some true ∧
    irange_list_find [⟨0, 2, false⟩, ⟨3, 5, true⟩] 5 = some true := by
  refine ⟨?_, by decide, by decide, by decide, by decide⟩
  simp [irange_list_union, irange_list_union_loop, irange_union_internal,
    irange_handle_cover_internal, iranges_intersect, iranges_adjoin,
    irange_union_simple, irange_eq_bounds, irange_cmp_lossiness,
    irb_pred, irb_succ, make_irange]

/-- **C3**: for every pair of valid range lists A and B (sorted,
non-overlapping), `irange_list_intersection(A,B)` covers exactly the set of
ordinals covered by both A and B, and every covered ordinal's lossiness in
the result is `lossy_in_A OR lossy_in_B` (this is exactly `inter_find`). -/
theorem C3_intersection_list_correct (a b : List IndexRange)
    (ha : rlist_valid a) (hb : rlist_valid b) :
    ∀ i, irange_list_find (irange_list_intersection a b) i =
      inter_find (irange_list_find a i) (irange_list_find b i) :=
  (irange_list_intersection_spec a b ha hb).2

theorem C3_intersection_list_correct_witness :
    rlist_valid [⟨0, 2, false⟩, ⟨5, 9, true⟩] ∧
    rlist_valid [⟨1, 6, true⟩] ∧
    ∀ i, irange_list_find
        (irange_list_intersection [⟨0, 2, false⟩, ⟨5, 9, true⟩] [⟨1, 6, true⟩]) i =
      inter_find (irange_list_find [⟨0, 2, false⟩, ⟨5, 9, true⟩] i)
        (irange_list_find [⟨1, 6, true⟩] i) :=
  ⟨by constructor <;> simp, by constructor <;> simp,
   C3_intersection_list_correct [⟨0, 2, false⟩, ⟨5, 9, true⟩] [⟨1, 6, true⟩]
     (by constructor <;> simp) (by constructor <;> simp)⟩

/-- **C8** (counterexample): `irange_list_union` is *not* commutative as a
function on lists.  With the valid inputs A = [(0,4,exact),(5,10,lossy)] and
B = [(5,10,exact)], `union(A,B) = [(0,4,false),(5,10,false)]` but
`union(B,A) = [(0,10,false)]`: the same ordinals with the same lossiness, in
different representations. -/
theorem C8_commutativity_counterexample :
    rlist_valid [⟨0, 4, false⟩, ⟨5, 10, true⟩] ∧
    rlist_valid [⟨5, 10, false⟩] ∧
    irange_list_union [⟨0, 4, false⟩, ⟨5, 10, true⟩] [⟨5, 10, false⟩] ≠
      irange_list_union [⟨5, 10, false⟩] [⟨0, 4, false⟩, ⟨5, 10, true⟩] := by
  refine ⟨by constructor <;> simp, by constructor <;> simp, ?_⟩
  have h1 : irange_list_union [⟨0, 4, false⟩, ⟨5, 10, true⟩] [⟨5, 10, false⟩] =
      [⟨0, 4, false⟩, ⟨5, 10, false⟩] := by
    simp [irange_list_union, irange_list_union_loop, irange_union_internal,
      irange_handle_cover_internal, iranges_intersect, iranges_adjoin,
      irange_union_simple, irange_eq_bounds, irange_cmp_lossiness,
      irb_pred, irb_succ, make_irange]
  have h2 : irange_list_union [⟨5, 10, false⟩] [⟨0, 4, false⟩, ⟨5, 10, true⟩] =
      [⟨0, 10, false⟩] := by
    simp [irange_list_union, irange_list_union_loop, irange_union_internal,
      irange_handle_cover_internal, iranges_intersect, iranges_adjoin,
      irange_union_simple, irange_eq_bounds, irange_cmp_lossiness,
      irb_pred, irb_succ, make_irange]
  rw [h1, h2]
  decide

/-- **C8** (amended): for valid range lists, `irange_list_union` is
commutative up to per-ordinal coverage and lossiness (not as a literal list),
`irange_list_intersection` is commutative as a literal list, and repeating
the identical union (resp. intersection) covers the same ordinals with the
same lossiness. -/
theorem C8_commutative_idempotent_amended (a b : List IndexRange)
    (ha : rlist_valid a) (hb : rlist_valid b) :
    (∀ i, irange_list_find (irange_list_union a b) i =
      irange_list_find (irange_list_union b a) i) ∧
    irange_list_intersection a b = irange_list_intersection b a ∧
    (∀ i, irange_list_find (irange_list_union (irange_list_union a b) b) i =
      irange_list_find (irange_list_union a b) i) ∧
    (∀ i, irange_list_find
        (irange_list_intersection (irange_list_intersection a b) b) i =
      irange_list_find (irange_list_intersection a b) i) := by
  obtain ⟨huv, huf⟩ := irange_list_union_spec a b ha hb
  obtain ⟨hiv, hif⟩ := irange_list_intersection_spec a b ha hb
  refine ⟨?_, irange_list_intersection_comm a b, ?_, ?_⟩
  · intro i
    rw [huf i, (irange_list_union_spec b a hb ha).2 i, union_find_comm]
  · intro i
    rw [(irange_list_union_spec (irange_list_union a b) b huv hb).2 i,
      huf i, union_find_idem_right]
  · intro i
    rw [(irange_list_intersection_spec (irange_list_intersection a b) b hiv hb).2 i,
      hif i, inter_find_idem_right]

theorem C8_commutative_idempotent_amended_witness :
    rlist_valid [⟨0, 4, false⟩, ⟨5, 10, true⟩] ∧
    rlist_valid [⟨5, 10, false⟩] ∧
    ((∀ i, irange_list_find
        (irange_list_union [⟨0, 4, false⟩, ⟨5, 10, true⟩] [⟨5, 10, false⟩]) i =
      irange_list_find
        (irange_list_union [⟨5, 10, false⟩] [⟨0, 4, false⟩, ⟨5, 10, true⟩]) i) ∧
    irange_list_intersection [⟨0, 4, false⟩, ⟨5, 10, true⟩] [⟨5, 10, false⟩] =
      irange_list_intersection [⟨5, 10, false⟩] [⟨0, 4, false⟩, ⟨5, 10, true⟩] ∧
    (∀ i, irange_list_find
        (irange_list_union
          (irange_list_union [⟨0, 4, false⟩, ⟨5, 10, true⟩] [⟨5, 10, false⟩])
          [⟨5, 10, false⟩]) i =
      irange_list_find
        (irange_list_union [⟨0, 4, false⟩, ⟨5, 10, true⟩] [⟨5, 10, false⟩]) i) ∧
    (∀ i, irange_list_find
        (irange_list_intersection
          (irange_list_intersection [⟨0, 4, false⟩, ⟨5, 10, true⟩] [⟨5, 10, false⟩])
          [⟨5, 10, false⟩]) i =
      irange_list_find
        (irange_list_intersection [⟨0, 4, false⟩, ⟨5, 10, true⟩] [⟨5, 10, false⟩]) i)) :=
  ⟨by constructor <;> simp, by constructor <;> simp,
   C8_commutative_idempotent_amended [⟨0, 4, false⟩, ⟨5, 10, true⟩]
     [⟨5, 10, false⟩] (by constructor <;> simp) (by constructor <;> simp)⟩

end Rangeset


namespace RelationInfo

/-! ### Helper lemmas about the cache primitives -/

theorem cache_update_self (c : PrelCache) (k : Oid) (v : Option PartRelationInfo) :
    cache_update c k v k = v := by
  simp [cache_update]

theorem invalidate_enter_self (c : PrelCache) (k : Oid) :
    ∃ e, (invalidate_pathman_relation_info c k false).1 k = some e ∧
      e.valid = false ∧ e.children = none ∧ e.ranges = none := by
  unfold invalidate_pathman_relation_info
  cases hc : c k with
  | none =>
      refine ⟨blank_prel, ?_, rfl, rfl, rfl⟩
      simp [hc, cache_update]
  | some x =>
      refine ⟨{ x with children := none, ranges := none, valid := false },
        ?_, rfl, rfl, rfl⟩
      simp [hc, cache_update]

theorem invalidate_enter_valid_false (c : PrelCache) (k : Oid)
    (e : PartRelationInfo)
    (h : (invalidate_pathman_relation_info c k false).1 k = some e) :
    e.valid = false ∧ e.children = none ∧ e.ranges = none := by
  obtain ⟨e', he', hv, hch, hr⟩ := invalidate_enter_self c k
  rw [he'] at h
  injection h with h
  subst h
  exact ⟨hv, hch, hr⟩

theorem remove_self (c : PrelCache) (k : Oid) :
    remove_pathman_relation_info c k k = none := by
  unfold remove_pathman_relation_info invalidate_pathman_relation_info
  cases hc : c k <;> simp [hc, cache_update]

end RelationInfo

namespace RelationInfo

set_option maxHeartbeats 1000000

/-- C4: `refresh_pathman_relation_info` is all-or-nothing: if deriving the
partition bounds fails partway through (`fill_prel_with_partitions`
ERRORs), the failure propagates to the caller and the cache entry is left
invalid with NULL `children` and `ranges` arrays; conversely, any entry the
cache holds with `valid = true` was fully populated from a successful
bound derivation. -/
theorem C4_refresh_all_or_nothing (env : RefreshEnv) (cache : PrelCache)
    (relid : Oid) (allow_incomplete hooks : Bool) (children : List Oid)
    (hlock : allow_incomplete = true → env.lock_ok = true)
    (hex : env.parent_exists = true)
    (hch : env.find_children = .FCS_FOUND children)
    (hfill : (fill_prel_with_partitions env.constraints env.parttype children
        hooks).1 = .error ()) :
    (refresh_pathman_relation_info env cache relid allow_incomplete hooks).2.2
      = .error () ∧
    (refresh_pathman_relation_info env cache relid allow_incomplete hooks).1 relid
      = some ⟨false, none, none, env.parttype, false⟩ ∧
    ∀ (env2 : RefreshEnv) (cache2 : PrelCache) (relid2 : Oid) (ai2 h2 : Bool)
      (e : PartRelationInfo),
      (refresh_pathman_relation_info env2 cache2 relid2 ai2 h2).1 relid2 = some e →
      e.valid = true →
      ∃ (chl : List Oid) (rngs : Option (List RangeEntry)) (cs : List Oid),
        env2.find_children = .FCS_FOUND cs ∧
        (fill_prel_with_partitions env2.constraints env2.parttype cs h2).1
          = .ok (chl, rngs) ∧
        e.children = some chl ∧ e.ranges = rngs := by
  have hnl : ¬(allow_incomplete = true ∧ ¬ env.lock_ok = true) := by
    rintro ⟨ha, hb⟩; exact hb (hlock ha)
  have hne : ¬ ¬ env.parent_exists = true := by simp [hex]
  rcases hF : fill_prel_with_partitions env.constraints env.parttype children hooks
    with ⟨res, hk⟩
  rw [hF] at hfill
  dsimp at hfill
  subst hfill
  refine ⟨?_, ?_, ?_⟩
  · simp only [refresh_pathman_relation_info]
    rw [if_neg hnl, if_neg hne, hch]
    dsimp only
    rw [hF]
  · simp only [refresh_pathman_relation_info]
    rw [if_neg hnl, if_neg hne, hch]
    dsimp only
    rw [hF]
    dsimp only
    rw [cache_update_self]
    simp [blank_prel]
  · intro env2 cache2 relid2 ai2 h2 e hre hval
    simp only [refresh_pathman_relation_info] at hre
    by_cases hq1 : ai2 = true ∧ ¬ env2.lock_ok = true
    · rw [if_pos hq1] at hre
      dsimp only at hre
      have := (invalidate_enter_valid_false cache2 relid2 e hre).1
      rw [hval] at this
      cases this
    · rw [if_neg hq1] at hre
      by_cases hq2 : ¬ env2.parent_exists = true
      · rw [if_pos hq2] at hre
        dsimp only at hre
        rw [remove_self] at hre
        cases hre
      · rw [if_neg hq2] at hre
        cases hfc : env2.find_children with
        | FCS_NO_CHILDREN =>
            rw [hfc] at hre
            dsimp only at hre
            rw [remove_self] at hre
            cases hre
        | FCS_COULD_NOT_LOCK =>
            rw [hfc] at hre
            dsimp only at hre
            rw [cache_update_self] at hre
            injection hre with hre
            rw [← hre] at hval
            cases hval
        | FCS_FOUND cs =>
            rw [hfc] at hre
            dsimp only at hre
            rcases hF2 : fill_prel_with_partitions env2.constraints env2.parttype
              cs h2 with ⟨res2, hk2⟩
            rw [hF2] at hre
            cases res2 with
            | error u =>
                dsimp only at hre
                rw [cache_update_self] at hre
                injection hre with hre
                rw [← hre] at hval
                cases hval
            | ok p =>
                cases p with
                | mk chl rngs =>
                    dsimp only at hre
                    rw [cache_update_self] at hre
                    injection hre with hre
                    refine ⟨chl, rngs, cs, rfl, ?_, ?_, ?_⟩
                    · rw [hF2]
                    · rw [← hre]
                    · rw [← hre]

/-- C4 witness: a HASH parent with one child (7) whose constraint is
malformed; the refresh errors out and the entry is left invalid. -/
theorem C4_refresh_all_or_nothing_witness :
    (refresh_pathman_relation_info c4_env (fun _ => none) 1 false true).2.2
      = .error () ∧
    (refresh_pathman_relation_info c4_env (fun _ => none) 1 false true).1 1
      = some ⟨false, none, none, c4_env.parttype, false⟩ :=
  ⟨(C4_refresh_all_or_nothing c4_env (fun _ => none) 1 false true [7]
      (fun _ => rfl) rfl rfl rfl).1,
   (C4_refresh_all_or_nothing c4_env (fun _ => none) 1 false true [7]
      (fun _ => rfl) rfl rfl rfl).2.1⟩

end RelationInfo

namespace RelationInfo

/-- C5 counterexample: inside a transaction with a pending shutdown, the
drain does NOT short-circuit when PATHMAN_CONFIG turns out not to have been
dropped: the queued parent 42 is processed (its cache entry is removed), so
per-identifier work does happen and the final state differs from the
claimed shutdown-only outcome. -/
theorem C5_shutdown_shortcircuit_counterexample :
    c5_st.shutdown = true ∧ c5_env.is_transaction = true ∧
    (finish_delayed_invalidation c5_env c5_st).caches.prels 42 ≠
      c5_st.caches.prels 42 ∧
    finish_delayed_invalidation c5_env c5_st ≠
      { parent_rels := [], vague_rels := [], shutdown := false,
        caches := unload_config c5_st.caches } := by
  have h1 : (finish_delayed_invalidation c5_env c5_st).caches.prels 42 = none := rfl
  have h2 : c5_st.caches.prels 42 = some blank_prel := rfl
  refine ⟨rfl, rfl, ?_, ?_⟩
  · rw [h1, h2]
    simp
  · intro h
    have h3 : (finish_delayed_invalidation c5_env c5_st).caches.prels 42 =
        ({ parent_rels := [], vague_rels := [], shutdown := false,
           caches := unload_config c5_st.caches } : DrainState).caches.prels 42 := by
      rw [h]
    rw [h1] at h3
    have h4 : ({ parent_rels := [], vague_rels := [], shutdown := false,
                 caches := unload_config c5_st.caches } :
        DrainState).caches.prels 42 = some blank_prel := rfl
    rw [h4] at h3
    simp at h3

/-- C5 (amended): the shutdown short-circuit is conditional — it happens
exactly when the drain (inside a transaction, shutdown pending) confirms
that PATHMAN_CONFIG was indeed dropped; then the config is unloaded, both
queues are cleared, and no per-identifier processing occurs. -/
theorem C5_shutdown_shortcircuit_amended (env : DrainEnv) (st : DrainState)
    (htx : env.is_transaction = true) (hsd : st.shutdown = true)
    (hdrop : env.config_dropped = true) :
    finish_delayed_invalidation env st =
      { parent_rels := [], vague_rels := [], shutdown := false,
        caches := unload_config st.caches } := by
  unfold finish_delayed_invalidation
  rw [if_neg (by simp [hsd]), if_pos htx, if_pos ⟨hsd, hdrop⟩]

/-- C5 amended witness: same drain state, but the oracle confirms the
config drop; the short-circuit outcome is exact. -/
theorem C5_shutdown_shortcircuit_amended_witness :
    finish_delayed_invalidation { c5_env with config_dropped := true } c5_st =
      { parent_rels := [], vague_rels := [], shutdown := false,
        caches := unload_config c5_st.caches } :=
  C5_shutdown_shortcircuit_amended { c5_env with config_dropped := true } c5_st
    rfl rfl rfl

/-- C6: the drain is idempotent — after one call inside a transaction, an
immediate second call (under any oracle) is a no-op, because the first call
always leaves both queues empty and the shutdown flag unset. -/
theorem C6_drain_idempotent (env1 env2 : DrainEnv) (st : DrainState)
    (htx : env1.is_transaction = true) :
    finish_delayed_invalidation env2 (finish_delayed_invalidation env1 st) =
      finish_delayed_invalidation env1 st := by
  by_cases h0 : st.parent_rels = [] ∧ st.vague_rels = [] ∧ st.shutdown = false
  · have hfix : finish_delayed_invalidation env1 st = st := by
      unfold finish_delayed_invalidation
      rw [if_pos h0]
    rw [hfix]
    unfold finish_delayed_invalidation
    rw [if_pos h0]
  · obtain ⟨cs, hEq⟩ : ∃ cs, finish_delayed_invalidation env1 st =
        { parent_rels := [], vague_rels := [], shutdown := false,
          caches := cs } := by
      unfold finish_delayed_invalidation
      rw [if_neg h0, if_pos htx]
      split
      · exact ⟨_, rfl⟩
      · exact ⟨_, rfl⟩
    rw [hEq]
    unfold finish_delayed_invalidation
    rw [if_pos ⟨rfl, rfl, rfl⟩]

/-- C6 witness: a drain with one queued non-TOAST parent; the second call
is a no-op. -/
theorem C6_drain_idempotent_witness :
    finish_delayed_invalidation c6_env
        (finish_delayed_invalidation c6_env c6_st) =
      finish_delayed_invalidation c6_env c6_st :=
  C6_drain_idempotent c6_env c6_env c6_st rfl

/-- C7: a partition whose constraint is missing or does not match the
canonical shape for its partitioning type (or whose parent's type is
unsupported) makes bound derivation fail (`none` = ereport(ERROR)) after
disabling the hooks, and the failure propagates through the fill loop
rather than being absorbed. -/
theorem C7_bad_constraint_disables_and_errors
    (constraints : Oid → Option ConstraintExpr) (pt : PartType)
    (child : Oid) (hooks : Bool)
    (hbad : constraints child = none ∨
      ∃ e, constraints child = some e ∧ e ≠ .nullTest ∧
        ((pt = .PT_HASH ∧ validate_hash_constraint e = none) ∨
         (pt = .PT_RANGE ∧ validate_range_constraint e = none) ∨
         pt = .PT_INDIFFERENT ∨ pt = .PT_NULL)) :
    derive_bound_of_partition constraints pt child hooks = (none, false) ∧
    ∀ rest : List Oid,
      (derive_bounds_list constraints pt (child :: rest) hooks).1 = .error () := by
  have hmain : derive_bound_of_partition constraints pt child hooks
      = (none, false) := by
    rcases hbad with hm | ⟨e, hce, hnn, hshape⟩
    · simp [derive_bound_of_partition, get_partition_constraint_expr, hm]
    · simp only [derive_bound_of_partition, get_partition_constraint_expr, hce]
      simp only [fill_pbin_with_bounds, if_neg hnn]
      rcases hshape with ⟨hpt, hv⟩ | ⟨hpt, hv⟩ | hpt | hpt
      · subst hpt; simp [hv]
      · subst hpt; simp [hv]
      · subst hpt; rfl
      · subst hpt; rfl
  refine ⟨hmain, ?_⟩
  intro rest
  simp [derive_bounds_list, hmain]

/-- C7 witness: a malformed constraint under a HASH parent disables the
hooks and errors, and the fill loop over `[7]` errors as well. -/
theorem C7_bad_constraint_disables_and_errors_witness :
    derive_bound_of_partition (fun _ => some .malformed) .PT_HASH 7 true
      = (none, false) ∧
    (derive_bounds_list (fun _ => some .malformed) .PT_HASH [7] true).1
      = .error () :=
  ⟨(C7_bad_constraint_disables_and_errors (fun _ => some .malformed) .PT_HASH 7
      true (Or.inr ⟨.malformed, rfl, by decide, Or.inl ⟨rfl, rfl⟩⟩)).1,
   (C7_bad_constraint_disables_and_errors (fun _ => some .malformed) .PT_HASH 7
      true (Or.inr ⟨.malformed, rfl, by decide, Or.inl ⟨rfl, rfl⟩⟩)).2 []⟩

/-- C9: invalidating an uncached relation with no `found` out-parameter
(`HASH_ENTER`) does not leave the cache unchanged: it inserts a fresh
invalid entry with NULL arrays, and a later `get` on a config relation
takes the refresh path. -/
theorem C9_invalidate_inserts_invalid_entry (cache : PrelCache) (relid : Oid)
    (h : cache relid = none) :
    (invalidate_pathman_relation_info cache relid false).1 relid
      = some ⟨false, none, none, .PT_INDIFFERENT, false⟩ ∧
    (invalidate_pathman_relation_info cache relid false).1 relid ≠ cache relid ∧
    (invalidate_pathman_relation_info cache relid false).2.1
      = some ⟨false, none, none, .PT_INDIFFERENT, false⟩ ∧
    ∀ (genv : GetEnv) (hooks : Bool), genv.in_config relid = true →
      get_pathman_relation_info genv
          (invalidate_pathman_relation_info cache relid false).1 relid hooks =
        refresh_pathman_relation_info genv.refresh_env
          (invalidate_pathman_relation_info cache relid false).1 relid
          false hooks := by
  have hc : (invalidate_pathman_relation_info cache relid false).1 relid
      = some ⟨false, none, none, .PT_INDIFFERENT, false⟩ := by
    simp [invalidate_pathman_relation_info, h, cache_update, blank_prel]
  refine ⟨hc, ?_, ?_, ?_⟩
  · rw [hc, h]
    simp
  · simp [invalidate_pathman_relation_info, h, blank_prel]
  · intro genv hooks hin
    simp [get_pathman_relation_info, hc, hin]

/-- C9 witness: an empty cache at relid 5. -/
theorem C9_invalidate_inserts_invalid_entry_witness :
    (fun _ => (none : Option PartRelationInfo)) 5 = none ∧
    (invalidate_pathman_relation_info (fun _ => none) 5 false).1 5
      = some ⟨false, none, none, .PT_INDIFFERENT, false⟩ :=
  ⟨rfl, (C9_invalidate_inserts_invalid_entry (fun _ => none) 5 rfl).1⟩

end RelationInfo

namespace RelationInfo

theorem foldl_process_parent_toast (env : DrainEnv) (l : List Oid) :
    ∀ cs : CacheState, (∀ o ∈ l, env.is_toast o = true) →
      l.foldl (process_parent_rel env) cs = cs := by
  induction l with
  | nil => intro cs _; rfl
  | cons x xs ih =>
      intro cs h
      have hx : process_parent_rel env cs x = cs := by
        simp [process_parent_rel, h x (by simp)]
      rw [List.foldl_cons, hx]
      exact ih cs fun o ho => h o (by simp [ho])

theorem foldl_process_vague_toast (env : DrainEnv) (fresh l : List Oid) :
    ∀ cs : CacheState, (∀ o ∈ l, env.is_toast o = true) →
      l.foldl (process_vague_rel env fresh) cs = cs := by
  induction l with
  | nil => intro cs _; rfl
  | cons x xs ih =>
      intro cs h
      have hx : process_vague_rel env fresh cs x = cs := by
        simp [process_vague_rel, h x (by simp)]
      rw [List.foldl_cons, hx]
      exact ih cs fun o ho => h o (by simp [ho])

/-- C10: a queued TOAST id is skipped entirely: both per-oid bodies are the
identity on it, and a drain whose queues hold only TOAST ids merely clears
the queues, leaving every cache untouched. -/
theorem C10_toast_ids_skipped (env : DrainEnv) (st : DrainState)
    (htx : env.is_transaction = true) (hsd : st.shutdown = false)
    (hp : ∀ o ∈ st.parent_rels, env.is_toast o = true)
    (hv : ∀ o ∈ st.vague_rels, env.is_toast o = true) :
    (∀ (cs : CacheState) (t : Oid), env.is_toast t = true →
        process_parent_rel env cs t = cs ∧
        ∀ fresh : List Oid, process_vague_rel env fresh cs t = cs) ∧
    finish_delayed_invalidation env st =
      { parent_rels := [], vague_rels := [], shutdown := false,
        caches := st.caches } := by
  refine ⟨?_, ?_⟩
  · intro cs t ht
    exact ⟨by simp [process_parent_rel, ht],
      fun fresh => by simp [process_vague_rel, ht]⟩
  · by_cases h0 : st.parent_rels = [] ∧ st.vague_rels = [] ∧ st.shutdown = false
    · have hfix : finish_delayed_invalidation env st = st := by
        unfold finish_delayed_invalidation
        rw [if_pos h0]
      rw [hfix]
      obtain ⟨e1, e2, e3⟩ := h0
      cases st
      simp_all
    · have h2 : ¬(st.shutdown = true ∧ env.config_dropped = true) := by
        simp [hsd]
      have hA : st.parent_rels.foldl (process_parent_rel env) st.caches
          = st.caches :=
        foldl_process_parent_toast env st.parent_rels st.caches hp
      have hB : st.vague_rels.foldl (process_vague_rel env st.parent_rels)
          st.caches = st.caches :=
        foldl_process_vague_toast env st.parent_rels st.vague_rels st.caches hv
      unfold finish_delayed_invalidation
      rw [if_neg h0, if_pos htx, if_neg h2]
      show DrainState.mk [] [] false
          (st.vague_rels.foldl (process_vague_rel env st.parent_rels)
            (st.parent_rels.foldl (process_parent_rel env) st.caches)) =
        { parent_rels := [], vague_rels := [], shutdown := false,
          caches := st.caches }
      rw [hA, hB]

/-- C10 witness: queues `[3]` and `[4]` under an all-TOAST namespace
oracle; the drain only clears the queues. -/
theorem C10_toast_ids_skipped_witness :
    (∀ (cs : CacheState) (t : Oid), c10_env.is_toast t = true →
        process_parent_rel c10_env cs t = cs ∧
        ∀ fresh : List Oid, process_vague_rel c10_env fresh cs t = cs) ∧
    finish_delayed_invalidation c10_env c10_st =
      { parent_rels := [], vague_rels := [], shutdown := false,
        caches := c10_st.caches } :=
  C10_toast_ids_skipped c10_env c10_st rfl rfl (fun o _ => rfl) (fun o _ => rfl)

end RelationInfo
